import Mathlib

/-!
# Verification of the perf-runner-ui canonical-configuration codecs

A shallow embedding of the repository's canonical-configuration model and its
serializers, translated from the JavaScript source:

* `EnvEncoder` (`docs/js/utils/env-encoder.js`, also bundled in
  `docs/js/utils/cookie-storage.js`): strict-ENV encode and decode.
* `HoconFormatter` (`docs/js/utils/cookie-storage.js`): HOCON encode.
* `PropertiesFormatter` (`docs/js/utils/properties-formatter.js`): Java
  Properties encode.
* `CanonicalMapper.validate`, `CanonicalMapper.parseDuration`,
  `CanonicalMapper.formatDuration` (`docs/js/utils/cookie-storage.js`).
* `ValidationUtils.validateLoadConfig` (`docs/js/utils/validators.js`).
* `StorageUtils.setItem` / `handleQuotaExceeded` (`docs/js/utils/storage.js`)
  and `PresetService.saveUserPresets` (`docs/js/services/PresetService.js`).

Modelling conventions:

* JavaScript strings are `List Char`; JavaScript numbers are `Int` (every
  numeric value occurring in a canonical document is integral; the string
  form of a number is its decimal rendering, matching
  `Number.prototype.toString` on integral values).  Fractional, hexadecimal
  and exponent numerals are outside the model and the numeric-coercion
  function returns `none` for them.
* JavaScript objects are association lists in insertion order
  (`Object.entries` order); `undefined` fields are absent keys, a stored
  `null` is the explicit `JVal.vNull`.
* Functions that push onto a `lines` array are translated to functions
  returning the list of pushed lines.
-/

/-- A JavaScript string, modelled as its list of characters. -/
abbrev Str := List Char

mutual

/-- A JavaScript value as it occurs in a canonical configuration document:
`null`, booleans, (integral) numbers, strings, arrays and plain objects. -/
inductive JVal where
  | vNull : JVal
  | vBool (b : Bool) : JVal
  | vNum (n : Int) : JVal
  | vStr (s : Str) : JVal
  | vArr (xs : JList) : JVal
  | vObj (fs : JFields) : JVal
  deriving DecidableEq

/-- The elements of a JavaScript array. -/
inductive JList where
  | nil : JList
  | cons (v : JVal) (rest : JList) : JList
  deriving DecidableEq

/-- The fields of a JavaScript object, in `Object.entries` order. -/
inductive JFields where
  | nil : JFields
  | cons (k : Str) (v : JVal) (rest : JFields) : JFields
  deriving DecidableEq

end

namespace JFields

/-- Reading a field of an object (`obj[k]`); `none` is JavaScript `undefined`. -/
def getField : JFields → Str → Option JVal
  | .nil, _ => none
  | .cons k v rest, key => if k = key then some v else rest.getField key

/-- Property assignment `obj[k] = v`: overwrite in place if the key exists,
append otherwise (JavaScript key-order semantics). -/
def setField : JFields → Str → JVal → JFields
  | .nil, key, v => .cons key v .nil
  | .cons k w rest, key, v =>
      if k = key then .cons k v rest else .cons k w (rest.setField key v)

/-- Whether the object has no own enumerable keys (`Object.keys(o).length === 0`). -/
def isNil : JFields → Bool
  | .nil => true
  | .cons _ _ _ => false

/-- Reading a nested value along a non-empty path of keys; descends only
through objects, `none` otherwise. -/
def getPath : JFields → List Str → Option JVal
  | _, [] => none
  | fs, [k] => fs.getField k
  | fs, k :: rest =>
      match fs.getField k with
      | some (.vObj g) => g.getPath rest
      | _ => none

end JFields

/-! ## JavaScript string primitives used by the codecs -/

/-- The characters matched by the regular-expression class `\s` (JavaScript
whitespace): ASCII whitespace, NBSP, BOM, and the Unicode space separators. -/
def jsWhitespace (c : Char) : Bool :=
  let n := c.toNat
  n == 0x20 || n == 0x09 || n == 0x0a || n == 0x0d || n == 0x0b || n == 0x0c ||
  n == 0xa0 || n == 0xfeff || n == 0x1680 ||
  (decide (0x2000 ≤ n) && decide (n ≤ 0x200a)) ||
  n == 0x2028 || n == 0x2029 || n == 0x202f || n == 0x205f || n == 0x3000

/-- `String.prototype.trim`: strip leading and trailing whitespace. -/
def jsTrim (s : Str) : Str :=
  ((s.dropWhile jsWhitespace).reverse.dropWhile jsWhitespace).reverse

/-- Decimal digit test (the regular-expression class `\d`). -/
def isDigitC (c : Char) : Bool := decide ('0' ≤ c) && decide (c ≤ '9')

/-- `Array.prototype.join('\n')`. -/
def joinNl : List Str → Str
  | [] => []
  | [l] => l
  | l :: ls => l ++ '\n' :: joinNl ls

/-- `String.prototype.split('\n')`: a newline closes the current piece, any
other character extends the first piece of the remainder's split. -/
def splitNl : Str → List Str
  | [] => [[]]
  | c :: rest =>
      if c = '\n' then [] :: splitNl rest
      else (splitNl rest).modifyHead (c :: ·)

/-- `String.prototype.split('__')`: split at the leftmost occurrences of a
double underscore. -/
def splitDU : Str → List Str
  | [] => [[]]
  | '_' :: '_' :: rest => [] :: splitDU rest
  | c :: rest =>
      match splitDU rest with
      | [] => [[c]]
      | l :: ls => (c :: l) :: ls

/-- Split the string at its first `=` (the key part may be empty). -/
def splitEqAux : Str → Option (Str × Str)
  | [] => none
  | c :: rest =>
      if c = '=' then some ([], rest)
      else
        match splitEqAux rest with
        | none => none
        | some (k, v) => some (c :: k, v)

/-- The match `line.match(/^([^=]+)=(.*)$/)`: split at the first `=`,
requiring a non-empty key part. -/
def splitFirstEq (s : Str) : Option (Str × Str) :=
  match splitEqAux s with
  | none => none
  | some (k, v) => if k = [] then none else some (k, v)

/-- The decimal rendering of an integer, as produced by
`Number.prototype.toString` on an integral value. -/
def intStr (n : Int) : Str := (toString n).data

/-- The value of a string of decimal digits (the action of `parseInt` on an
all-digit string). -/
def digitsToNat (s : Str) : Nat :=
  s.foldl (fun acc c => acc * 10 + (c.toNat - '0'.toNat)) 0

/-- The test `/^\d+\.\d+$/`: one or more digits, a dot, one or more digits. -/
def digitDotDigit (s : Str) : Bool :=
  decide ((s.takeWhile (· ≠ '.')) ≠ []) &&
  (s.takeWhile (· ≠ '.')).all isDigitC &&
  decide ((s.dropWhile (· ≠ '.')) ≠ []) &&
  decide (((s.dropWhile (· ≠ '.')).drop 1) ≠ []) &&
  ((s.dropWhile (· ≠ '.')).drop 1).all isDigitC

/-! ## EnvEncoder (docs/js/utils/env-encoder.js) -/

/-- A canonical configuration document: the two top-level branches
`userDefinedVariable` and `test`, both plain objects (this is the exact shape
`CanonicalMapper.toCanonical` produces; all codecs consume it). -/
structure Canon where
  udv : JFields
  test : JFields

namespace EnvEncoder

/-- The character class of `EnvEncoder.escapeEnvValue`'s quoting test
`/[\s$"'`\\]/`: whitespace, dollar, double quote, single quote, backtick,
backslash. -/
def envSpecial (c : Char) : Bool :=
  jsWhitespace c || c == '$' || c == '"' || c == '\'' || c == '`' || c == '\\'

/-- `value.replace(/"/g, '\\"')`: backslash-escape every double quote. -/
def escDQ (s : Str) : Str :=
  s.flatMap fun c => if c = '"' then ['\\', '"'] else [c]

/-- `EnvEncoder.escapeEnvValue`: quote (escaping inner double quotes) if the
string contains a character of `envSpecial`, else return it bare. -/
def escapeEnvValue (value : Str) : Str :=
  if value.any envSpecial then '"' :: escDQ value ++ ['"'] else value

/-- `EnvEncoder.toEnvKey`: hyphens to underscores, uppercase, join to the
prefix with a double underscore.  (The source also emits a `console.warn`
diagnostic for segments that normalize outside `[A-Z0-9_]`; diagnostics have
no effect on the output.)  Case mapping is ASCII, as in every key this
application produces. -/
def toEnvKey (pre seg : Str) : Str :=
  let normalized := (seg.map fun c => if c = '-' then '_' else c).map Char.toUpper
  if pre = [] then normalized else pre ++ '_' :: '_' :: normalized

mutual

/-- `EnvEncoder.toEnvValue`: booleans and numbers stringify, strings are
escaped, arrays are comma-joined element renderings, `String(value)` otherwise
(`"null"` for an array-embedded null, `"[object Object]"` for an object). -/
def toEnvValue : JVal → Str
  | .vBool b => if b then "true".data else "false".data
  | .vNum n => intStr n
  | .vStr s => escapeEnvValue s
  | .vArr xs => envValJoin xs
  | .vNull => "null".data
  | .vObj _ => "[object Object]".data

/-- `value.map(v => this.toEnvValue(v)).join(',')`. -/
def envValJoin : JList → Str
  | .nil => []
  | .cons v .nil => toEnvValue v
  | .cons v rest => toEnvValue v ++ ',' :: envValJoin rest

end

/-- `EnvEncoder.encodeObject`: depth-first walk; null/undefined leaves are
skipped, nested objects recurse with the extended key, everything else emits
one `KEY=value` line. -/
def encodeObject : JFields → Str → List Str
  | .nil, _ => []
  | .cons k v rest, pre =>
      let envKey := toEnvKey pre k
      (match v with
       | .vNull => []
       | .vObj fs => encodeObject fs envKey
       | w => [envKey ++ '=' :: toEnvValue w]) ++ encodeObject rest pre

/-- `EnvEncoder.encode`: header comments (with the generation timestamp `t`),
the `userDefinedVariable` section when non-empty, then the `test` section. -/
def encode (t : Str) (c : Canon) : Str :=
  joinNl
    (["# Gatling Performance Test Configuration".data,
      "# Generated: ".data ++ t, []] ++
     (if c.udv.isNil then []
      else "# User-Defined Variables".data ::
        encodeObject c.udv "USERDEFINEDVARIABLE".data ++ [[]]) ++
     ("# Test Configuration".data :: encodeObject c.test "TEST".data))

/-- `EnvEncoder.fromEnvSegment`'s replacement pass
`replace(/_([a-z])/g, (_, letter) => letter.toUpperCase())`. -/
def camelize : Str → Str
  | [] => []
  | '_' :: c :: rest =>
      if decide ('a' ≤ c) && decide (c ≤ 'z')
      then c.toUpper :: camelize rest
      else '_' :: camelize (c :: rest)
  | c :: rest => c :: camelize rest

/-- `EnvEncoder.fromEnvSegment`: lowercase, then camelize `_x` to `X`. -/
def fromEnvSegment (seg : Str) : Str :=
  camelize (seg.map Char.toLower)

/-- `value.replace(/\\"/g, '"')`: collapse backslash-escaped double quotes,
scanning left to right. -/
def unescDQ : Str → Str
  | [] => []
  | [c] => [c]
  | c :: d :: rest =>
      if c = '\\' ∧ d = '"' then '"' :: unescDQ rest
      else c :: unescDQ (d :: rest)

/-- `value.replace(/^"(.*)"$/, '$1')`: strip one pair of surrounding double
quotes when the string both starts and ends with one. -/
def stripDQ (value : Str) : Str :=
  if 2 ≤ value.length ∧ value.head? = some '"' ∧ value.getLast? = some '"'
  then (value.drop 1).dropLast
  else value

/-- `EnvEncoder.parseEnvValue`: dequote, then `"true"`/`"false"` to booleans,
all-digit strings to integers, `digits.digits` to floats, strings otherwise.
The float branch (`/^\d+\.\d+$/`, parsed with `parseFloat`) produces a
non-integral number, which the integer-number model cannot represent: it is
returned as `none` and no theorem below depends on it. -/
def parseEnvValue (value : Str) : Option JVal :=
  let unquoted := unescDQ (stripDQ value)
  if unquoted = "true".data then some (.vBool true)
  else if unquoted = "false".data then some (.vBool false)
  else if unquoted ≠ [] ∧ unquoted.all isDigitC then
    some (.vNum (digitsToNat unquoted))
  else if digitDotDigit unquoted then none
  else some (.vStr unquoted)

/-- `EnvEncoder.setNestedValue`: walk the path, replacing any missing or
non-object intermediate with a fresh `{}`, and assign at the last segment.
(In `decode`, the only caller, intermediates are always absent, objects this
walk created, or scalars; a stored array cannot occur.) -/
def setNested (fs : JFields) (path : List Str) (v : JVal) : JFields :=
  match path with
  | [] => fs
  | [k] => fs.setField k v
  | k :: rest =>
      let sub := match fs.getField k with
        | some (.vObj g) => g
        | _ => JFields.nil
      fs.setField k (.vObj (setNested sub rest v))

/-- The result object of `EnvEncoder.decode`. -/
structure Decoded where
  udv : JFields
  test : JFields
  deriving DecidableEq

/-- The body of the `lines.forEach` in `EnvEncoder.decode`: skip blank and
comment lines, split at the first `=`, split the key on `__`, dispatch on the
root segment and assign the parsed value along the camelized path. -/
def decodeLine (acc : Decoded) (line : Str) : Decoded :=
  if jsTrim line = [] ∨ (jsTrim line).head? = some '#' then acc
  else
    match splitFirstEq line with
    | none => acc
    | some (k, v) =>
        let key := jsTrim k
        let value := jsTrim v
        match splitDU key with
        | [] => acc
        | [_] => acc
        | root :: restSegs =>
            let path := restSegs.map fromEnvSegment
            match parseEnvValue value with
            | none => acc
            | some w =>
                if root = "USERDEFINEDVARIABLE".data then
                  { acc with udv := setNested acc.udv path w }
                else if root = "TEST".data then
                  { acc with test := setNested acc.test path w }
                else acc

/-- `EnvEncoder.decode`: fold the line handler over the split input, starting
from `{ userDefinedVariable: {}, test: {} }`. -/
def decode (s : Str) : Decoded :=
  (splitNl s).foldl decodeLine ⟨.nil, .nil⟩

end EnvEncoder

/-! ## Shared duration pattern -/

/-- The duration test `/^\d+[smh]$/` used by `HoconFormatter.formatValue`,
`PropertiesFormatter.formatValue` and `CanonicalMapper.formatDuration`:
one or more digits followed by exactly one unit letter. -/
def durationPat (s : Str) : Bool :=
  match s.getLast? with
  | some u =>
      (u == 's' || u == 'm' || u == 'h') &&
      decide (s.dropLast ≠ []) && s.dropLast.all isDigitC
  | none => false

/-! ## JSON.stringify (the built-in serializer, used directly for the JSON
output format and as `HoconFormatter.formatValue`'s object fallback) -/

/-- Lowercase hexadecimal digit. -/
def hexDigit (n : Nat) : Char :=
  if n < 10 then Char.ofNat ('0'.toNat + n) else Char.ofNat ('a'.toNat + n - 10)

/-- JSON string-character escaping as performed by `JSON.stringify`. -/
def jsonEscChar (c : Char) : Str :=
  if c = '"' then ['\\', '"']
  else if c = '\\' then ['\\', '\\']
  else if c = '\n' then ['\\', 'n']
  else if c = '\r' then ['\\', 'r']
  else if c = '\t' then ['\\', 't']
  else if c.toNat = 0x08 then ['\\', 'b']
  else if c.toNat = 0x0c then ['\\', 'f']
  else if c.toNat < 0x20 then
    ['\\', 'u', '0', '0', hexDigit (c.toNat / 16), hexDigit (c.toNat % 16)]
  else [c]

mutual

/-- `JSON.stringify(v)` (compact form, no spacing). -/
def jsonStringify : JVal → Str
  | .vNull => "null".data
  | .vBool b => if b then "true".data else "false".data
  | .vNum n => intStr n
  | .vStr s => '"' :: s.flatMap jsonEscChar ++ ['"']
  | .vArr xs => '\x5b' :: jsonArrBody xs ++ ['\x5d']
  | .vObj fs => '\x7b' :: jsonObjBody fs ++ ['\x7d']

/-- Array elements, comma-joined. -/
def jsonArrBody : JList → Str
  | .nil => []
  | .cons v .nil => jsonStringify v
  | .cons v rest => jsonStringify v ++ ',' :: jsonArrBody rest

/-- Object entries `"k":v`, comma-joined. -/
def jsonObjBody : JFields → Str
  | .nil => []
  | .cons k v .nil => '"' :: k.flatMap jsonEscChar ++ '"' :: ':' :: jsonStringify v
  | .cons k v rest =>
      '"' :: k.flatMap jsonEscChar ++ '"' :: ':' :: jsonStringify v ++
        ',' :: jsonObjBody rest

end

/-! ## HoconFormatter (bundled in docs/js/utils/cookie-storage.js) -/

namespace HoconFormatter

/-- Two spaces per indentation level (`'  '.repeat(indent)`). -/
def indentStr (n : Nat) : Str := List.flatten (List.replicate n [' ', ' '])

mutual

/-- `HoconFormatter.formatValue`: null renders as the literal `null`;
booleans and numbers bare; duration-pattern strings bare; other strings
double-quoted with inner quotes escaped; arrays bracketed and joined with
`', '`; objects fall back to `JSON.stringify`. -/
def formatValue : JVal → Str
  | .vNull => "null".data
  | .vBool b => if b then "true".data else "false".data
  | .vNum n => intStr n
  | .vStr s =>
      if durationPat s then s else '"' :: EnvEncoder.escDQ s ++ ['"']
  | .vArr xs => '\x5b' :: arrJoin xs ++ ['\x5d']
  | .vObj fs => jsonStringify (.vObj fs)

/-- `value.map(v => this.formatValue(v)).join(', ')`. -/
def arrJoin : JList → Str
  | .nil => []
  | .cons v .nil => formatValue v
  | .cons v rest => formatValue v ++ ',' :: ' ' :: arrJoin rest

end

/-- `HoconFormatter.formatObject`: skip null/undefined entries; recurse into
non-empty plain objects with a brace block; render every other value as a
`key = value` line. -/
def formatObject : JFields → Nat → List Str
  | .nil, _ => []
  | .cons k v rest, ind =>
      (match v with
       | .vNull => []
       | .vObj fs =>
           if fs.isNil then
             [indentStr ind ++ k ++ ' ' :: '=' :: ' ' :: formatValue (.vObj fs)]
           else
             (indentStr ind ++ k ++ [' ', '\x7b']) ::
               formatObject fs (ind + 1) ++ [indentStr ind ++ ['\x7d']]
       | w => [indentStr ind ++ k ++ ' ' :: '=' :: ' ' :: formatValue w]) ++
      formatObject rest ind

/-- `HoconFormatter.format`: header comments (with the generation timestamp
`t`), the `userDefinedVariable` block when non-empty, then the `test` block. -/
def format (t : Str) (c : Canon) : Str :=
  joinNl
    (["# Gatling HOCON Configuration".data, "# Generated: ".data ++ t, []] ++
     (if c.udv.isNil then []
      else ("userDefinedVariable ".data ++ ['\x7b']) ::
        formatObject c.udv 1 ++ [['\x7d'], []]) ++
     (("test ".data ++ ['\x7b']) :: formatObject c.test 1 ++ [['\x7d']]))

end HoconFormatter

/-! ## PropertiesFormatter (docs/js/utils/properties-formatter.js) -/

namespace PropertiesFormatter

/-- `PropertiesFormatter.normalizeKey`: lowercase the whole dotted key. -/
def normalizeKey (k : Str) : Str := k.map Char.toLower

/-- One global single-character replacement `replace(/c/g, r)`. -/
def repC (c : Char) (r : Str) (s : Str) : Str :=
  s.flatMap fun x => if x = c then r else [x]

/-- `PropertiesFormatter.escapeValue`: the source's chain of global replaces,
in order — backslash, newline, carriage return, tab, equals, hash, bang
(colons deliberately unescaped). -/
def escapeValue (value : Str) : Str :=
  repC '!' "\\!".data
    (repC '#' "\\#".data
      (repC '=' "\\=".data
        (repC '\t' "\\t".data
          (repC '\r' "\\r".data
            (repC '\n' "\\n".data
              (repC '\\' "\\\\".data value))))))

mutual

/-- `PropertiesFormatter.formatValue`: null/undefined to the empty string
(reachable only inside arrays); booleans and numbers bare; duration-pattern
strings bare; other strings escaped; arrays comma-joined then escaped as a
whole; otherwise `escapeValue(String(value))`. -/
def formatValue : JVal → Str
  | .vNull => []
  | .vBool b => if b then "true".data else "false".data
  | .vNum n => intStr n
  | .vStr s => if durationPat s then s else escapeValue s
  | .vArr xs => escapeValue (arrJoin xs)
  | .vObj _ => escapeValue ("[object Object]".data)

/-- `value.map(v => this.formatValue(v)).join(',')`. -/
def arrJoin : JList → Str
  | .nil => []
  | .cons v .nil => formatValue v
  | .cons v rest => formatValue v ++ ',' :: arrJoin rest

end

/-- `PropertiesFormatter.formatObject`: skip null/undefined entries; extend
the dot-path; recurse into non-empty plain objects; render every other value
as a `lowercased.key=value` line. -/
def formatObject : JFields → Str → List Str
  | .nil, _ => []
  | .cons k v rest, pre =>
      (match v with
       | .vNull => []
       | w =>
           let fullKey := if pre = [] then k else pre ++ '.' :: k
           match w with
           | .vObj fs =>
               if fs.isNil then
                 [normalizeKey fullKey ++ '=' :: formatValue (.vObj fs)]
               else formatObject fs fullKey
           | _ => [normalizeKey fullKey ++ '=' :: formatValue w]) ++
      formatObject rest pre

/-- `PropertiesFormatter.format`: header comments (with the generation
timestamp `t`), the `userDefinedVariable` section when non-empty, then the
`test` section. -/
def format (t : Str) (c : Canon) : Str :=
  joinNl
    (["# Properties Configuration".data, "# Generated: ".data ++ t, []] ++
     (if c.udv.isNil then []
      else "# User-Defined Variables".data ::
        formatObject c.udv "userDefinedVariable".data ++ [[]]) ++
     ("# Test Configuration".data :: formatObject c.test "test".data))

end PropertiesFormatter

/-! ## JavaScript coercion helpers for CanonicalMapper -/

/-- The action of `Number(...)` on a string: trim, empty to `0`, optionally
signed digit runs to their value.  Fractional, exponent, hexadecimal and
`Infinity` numerals denote non-integral or non-finite numbers outside this
model and yield `none` (which the callers below treat like `NaN`). -/
def jsStrToNum (s : Str) : Option Int :=
  let t := jsTrim s
  if t = [] then some 0
  else if t.all isDigitC then some (digitsToNat t)
  else
    match t with
    | '-' :: rest =>
        if rest ≠ [] ∧ rest.all isDigitC then some (-(digitsToNat rest : Int))
        else none
    | '+' :: rest =>
        if rest ≠ [] ∧ rest.all isDigitC then some (digitsToNat rest)
        else none
    | _ => none

mutual

/-- `String(v)` on the modelled values. -/
def jsToStr : JVal → Str
  | .vNull => "null".data
  | .vBool b => if b then "true".data else "false".data
  | .vNum n => intStr n
  | .vStr s => s
  | .vArr xs => jsArrJoinStr xs
  | .vObj _ => "[object Object]".data

/-- `Array.prototype.toString`: elements joined with `,`, null/undefined
elements as the empty string. -/
def jsArrJoinStr : JList → Str
  | .nil => []
  | .cons v .nil => jsArrElemStr v
  | .cons v rest => jsArrElemStr v ++ ',' :: jsArrJoinStr rest

/-- One array element under `join`: empty for null/undefined. -/
def jsArrElemStr : JVal → Str
  | .vNull => []
  | v => jsToStr v

end

/-- The action of `Number(v)`: `null` to `0`, booleans to `0`/`1`, numbers
unchanged, strings via `jsStrToNum`, arrays via their string form, objects to
`NaN` (`none`). -/
def jsNumber : JVal → Option Int
  | .vNull => some 0
  | .vBool b => some (if b then 1 else 0)
  | .vNum n => some n
  | .vStr s => jsStrToNum s
  | .vArr xs => jsStrToNum (jsArrJoinStr xs)
  | .vObj _ => none

/-- JavaScript truthiness of a value. -/
def jsTruthy : JVal → Bool
  | .vNull => false
  | .vBool b => b
  | .vNum n => decide (n ≠ 0)
  | .vStr s => decide (s ≠ [])
  | .vArr _ => true
  | .vObj _ => true

/-- Truthiness of a possibly-undefined value. -/
def optTruthy : Option JVal → Bool
  | none => false
  | some v => jsTruthy v

/-- Property read `v.k` on an arbitrary value: objects look up the field,
anything else yields `undefined` (none of the accessed names is a built-in
property of a primitive). -/
def jsGet (v : JVal) (k : Str) : Option JVal :=
  match v with
  | .vObj fs => fs.getField k
  | _ => none

/-- Optional-chain step `v?.k`. -/
def jsChain (v : Option JVal) (k : Str) : Option JVal :=
  match v with
  | none => none
  | some w => jsGet w k

/-! ## CanonicalMapper (bundled in docs/js/utils/cookie-storage.js) -/

namespace CanonicalMapper

/-- `CanonicalMapper.formatDuration`: null/undefined returned as-is;
unit-suffixed strings as-is; numbers as-is; otherwise `Number(value)` when it
is not `NaN`; otherwise the input unchanged. -/
def formatDuration (v : JVal) : JVal :=
  match v with
  | .vNull => .vNull
  | .vStr s =>
      if durationPat s then .vStr s
      else
        match jsNumber (.vStr s) with
        | some n => .vNum n
        | none => .vStr s
  | .vNum n => .vNum n
  | w =>
      match jsNumber w with
      | some n => .vNum n
      | none => w

/-- `CanonicalMapper.parseDuration`: numbers pass through; strings matching
`/^(\d+)([smh]?)$/` evaluate with the unit table `s=1, m=60, h=3600` (bare
digits are seconds); everything else is `0`. -/
def parseDuration (v : JVal) : Int :=
  match v with
  | .vNum n => n
  | .vStr s =>
      if s ≠ [] ∧ s.all isDigitC then (digitsToNat s : Int)
      else
        match s.getLast? with
        | some u =>
            if (u == 's' || u == 'm' || u == 'h') &&
               (decide (s.dropLast ≠ []) && s.dropLast.all isDigitC) then
              if u = 'm' then (digitsToNat s.dropLast : Int) * 60
              else if u = 'h' then (digitsToNat s.dropLast : Int) * 3600
              else (digitsToNat s.dropLast : Int)
            else 0
        | none => 0
  | _ => 0

/-- The message of the pause-ordering check in `CanonicalMapper.validate`. -/
def pauseMsg : Str := "pause.min cannot be greater than pause.max".data

/-- `CanonicalMapper.validate`: the four required-field checks, then the
pause-ordering check; `valid` is `errors.length === 0`. -/
def validate (canonical : JVal) : Bool × List Str :=
  let test := jsGet canonical "test".data
  let errors :=
    (if !optTruthy (jsChain test "simulation".data) then
       ["test.simulation is required".data] else []) ++
    (if !optTruthy (jsChain test "type".data) then
       ["test.type is required".data] else []) ++
    (if !optTruthy (jsChain (jsChain test "environment".data) "type".data) then
       ["test.environment.type is required".data] else []) ++
    (if !optTruthy (jsChain (jsChain test "environment".data) "url".data) then
       ["test.environment.url is required".data] else []) ++
    (match jsChain (jsChain test "load".data) "pause".data with
     | some pause =>
         if jsTruthy pause then
           match jsGet pause "min".data, jsGet pause "max".data with
           | some mn, some mx =>
               if parseDuration mn > parseDuration mx then [pauseMsg] else []
           | _, _ => []
         else []
     | none => [])
  (errors.isEmpty, errors)

end CanonicalMapper

/-! ## ValidationUtils (docs/js/utils/validators.js) -/

namespace ValidationUtils

/-- The flat load-profile data consumed by `validateLoadConfig`; absent
fields are JavaScript `undefined`. -/
structure LoadData where
  users : Option Int := none
  duration : Option Int := none
  rampUp : Option Int := none
  minPause : Option Int := none
  maxPause : Option Int := none
  warmupDuration : Option Int := none
  warmupUsers : Option Int := none

/-- `ValidationUtils.validateLoadConfig`: the six checks in declaration
order, each skipped when its fields are absent, collecting messages. -/
def validateLoadConfig (ld : LoadData) : List Str :=
  (match ld.users with
   | some u => if u < 1 then ["Users must be at least 1".data] else []
   | none => []) ++
  (match ld.duration with
   | some d => if d < 0 then ["Duration cannot be negative".data] else []
   | none => []) ++
  (match ld.duration, ld.rampUp with
   | some d, some r =>
       if d < r then ["Duration must be greater than or equal to Ramp-Up time".data]
       else []
   | _, _ => []) ++
  (match ld.minPause, ld.maxPause with
   | some a, some b =>
       if a > b then ["Min Pause cannot be greater than Max Pause".data] else []
   | _, _ => []) ++
  (match ld.warmupDuration with
   | some w => if w < 0 then ["Warmup Duration cannot be negative".data] else []
   | none => []) ++
  (match ld.warmupUsers with
   | some w => if w < 0 then ["Warmup Users cannot be negative".data] else []
   | none => [])

end ValidationUtils

/-! ## StorageUtils and PresetService (docs/js/utils/storage.js,
docs/js/services/PresetService.js) -/

namespace StorageUtils

/-- The localStorage contents: keyed records in insertion order.  Stored
strings are modelled as the JSON values they encode (`setJSON`/`getJSON`
stringify and parse at the boundary). -/
abbrev Store := List (Str × JVal)

/-- `localStorage.setItem`'s effect on the record list: overwrite an
existing key in place, append a new one. -/
def storePut : Store → Str → JVal → Store
  | [], k, v => [(k, v)]
  | (k', w) :: rest, k, v =>
      if k' = k then (k', v) :: rest else (k', w) :: storePut rest k v

/-- `localStorage.removeItem`. -/
def storeRemove (st : Store) (k : Str) : Store :=
  st.filter fun e => e.1 ≠ k

/-- The timestamp `handleQuotaExceeded` reads from a stored value: present
when the value is an object whose truthy `timestamp` field is a number
(string-dated timestamps parse through `new Date(...)`, outside this model). -/
def tsOf (v : JVal) : Option Int :=
  match v with
  | .vObj fs =>
      match fs.getField "timestamp".data with
      | some w =>
          if jsTruthy w then
            match w with
            | .vNum n => some n
            | _ => none
          else none
      | none => none
  | _ => none

/-- Stable ascending insertion by timestamp (the array sort
`(a, b) => a.timestamp - b.timestamp`; ECMAScript sorts are stable). -/
def insertTs (x : Str × Int) : List (Str × Int) → List (Str × Int)
  | [] => [x]
  | y :: rest => if x.2 ≤ y.2 then x :: y :: rest else y :: insertTs x rest

/-- Sort the keyed timestamps ascending, stably. -/
def sortTs : List (Str × Int) → List (Str × Int)
  | [] => []
  | x :: rest => insertTs x (sortTs rest)

/-- `StorageUtils.handleQuotaExceeded`: collect the timestamped entries,
sort oldest-first, remove the oldest quarter (`Math.ceil(n * 0.25)`). -/
def handleQuotaExceeded (st : Store) : Store :=
  let keysWithTime := st.filterMap fun e =>
    match tsOf e.2 with
    | some ts => some (e.1, ts)
    | none => none
  let sorted := sortTs keysWithTime
  let toRemove := (keysWithTime.length + 3) / 4
  (sorted.take toRemove).foldl (fun s e => storeRemove s e.1) st

/-- The outcome of one `StorageUtils.setItem` call: the resulting store, the
returned boolean, and the number of raw `localStorage.setItem` write attempts
performed for this key during the call. -/
structure SetItemResult where
  store : Store
  ok : Bool
  writes : Nat
  deriving DecidableEq

/-- `StorageUtils.setItem` under a quota `quotaOk` (the browser accepts a
store iff `quotaOk` holds of it): on success the write sticks and `true` is
returned; on a `QuotaExceededError` the store is left as the cleanup pass
leaves it and `false` is returned — the write is not re-attempted. -/
def setItem (quotaOk : Store → Bool) (st : Store) (k : Str) (v : JVal) :
    SetItemResult :=
  let attempted := storePut st k v
  if quotaOk attempted then ⟨attempted, true, 1⟩
  else ⟨handleQuotaExceeded st, false, 1⟩

/-- `StorageUtils.setJSON`: stringify and store (`JSON.stringify` of a
preset array always succeeds, so this is `setItem` on the encoded value). -/
def setJSON (quotaOk : Store → Bool) (st : Store) (k : Str) (v : JVal) :
    SetItemResult :=
  setItem quotaOk st k v

end StorageUtils

namespace PresetService

/-- The storage key for user presets. -/
def STORAGE_KEY : Str := "perf_runner_presets".data

/-- `PresetService.saveUserPresets`: store the preset array via `setJSON`,
ignore its boolean result, and return `true`; the `catch` branch is
unreachable because `setItem` swallows storage exceptions. -/
def saveUserPresets (quotaOk : StorageUtils.Store → Bool)
    (st : StorageUtils.Store) (presets : JVal) :
    StorageUtils.Store × Bool :=
  let r := StorageUtils.setJSON quotaOk st STORAGE_KEY presets
  (r.store, true)

end PresetService

/-! ## Claim-side definitions: interpretation functions and spec-modelled
variants used to state the claims -/

/-- Whether a value is a scalar (string, number or boolean) leaf. -/
def isScalarV : JVal → Bool
  | .vBool _ => true
  | .vNum _ => true
  | .vStr _ => true
  | _ => false

/-- Whether a value is a number. -/
def isNumV : JVal → Bool
  | .vNum _ => true
  | _ => false

/-- Whether a value is a string matching `CanonicalMapper.parseDuration`'s
regular expression `/^(\d+)([smh]?)$/`. -/
def pauseRegexMatches : JVal → Bool
  | .vStr s => (decide (s ≠ []) && s.all isDigitC) || durationPat s
  | _ => false

/-- The semantic text of a scalar leaf: the characters a reader extracts
after undoing the format's own quoting/escaping. -/
def semText : JVal → Str
  | .vBool b => if b then "true".data else "false".data
  | .vNum n => intStr n
  | .vStr s => s
  | _ => []

/-- A codec-breaking character for claim C1: a character some codec quotes,
escapes or rewrites — JavaScript whitespace, the ENV specials
`$ " ' `` \ `, the Properties escapes `= # !`, and control characters
(which `JSON.stringify` escapes). -/
def codecBreaking (c : Char) : Bool :=
  EnvEncoder.envSpecial c || c == '=' || c == '#' || c == '!' ||
  decide (c.toNat < 0x20)

/-- A scalar whose string content has no codec-breaking characters. -/
def scalarSafe : JVal → Bool
  | .vBool _ => true
  | .vNum _ => true
  | .vStr s => s.all fun c => !codecBreaking c
  | _ => false

/-- Undo JSON string quoting: strip one pair of surrounding double quotes and
collapse the standard JSON escapes (sufficient for every string
`JSON.stringify` emits for quote-free, backslash-free, control-free input). -/
def jsonUnesc : Str → Str
  | [] => []
  | [c] => [c]
  | c :: d :: rest =>
      if c = '\\' then
        if d = '"' then '"' :: jsonUnesc rest
        else if d = '\\' then '\\' :: jsonUnesc rest
        else if d = 'n' then '\n' :: jsonUnesc rest
        else if d = 'r' then '\r' :: jsonUnesc rest
        else if d = 't' then '\t' :: jsonUnesc rest
        else c :: jsonUnesc (d :: rest)
      else c :: jsonUnesc (d :: rest)

/-- The value a reader extracts from a rendered JSON scalar, modulo JSON's
quoting. -/
def dequoteJson (l : Str) : Str :=
  if 2 ≤ l.length ∧ l.head? = some '"' ∧ l.getLast? = some '"'
  then jsonUnesc ((l.drop 1).dropLast)
  else l

/-- The value a reader extracts from a rendered ENV scalar, modulo ENV's
quoting: exactly the dequoting pass `EnvEncoder.parseEnvValue` itself runs. -/
def dequoteEnv (l : Str) : Str :=
  EnvEncoder.unescDQ (EnvEncoder.stripDQ l)

/-- The value a reader extracts from a rendered HOCON scalar, modulo HOCON's
quoting (double quotes with backslash-escaped inner quotes). -/
def dequoteHocon (l : Str) : Str :=
  EnvEncoder.unescDQ (EnvEncoder.stripDQ l)

/-- Undo `PropertiesFormatter.escapeValue`'s backslash escaping. -/
def propUnesc : Str → Str
  | [] => []
  | [c] => [c]
  | c :: d :: rest =>
      if c = '\\' then
        if d = '\\' then '\\' :: propUnesc rest
        else if d = 'n' then '\n' :: propUnesc rest
        else if d = 'r' then '\r' :: propUnesc rest
        else if d = 't' then '\t' :: propUnesc rest
        else if d = '=' then '=' :: propUnesc rest
        else if d = '#' then '#' :: propUnesc rest
        else if d = '!' then '!' :: propUnesc rest
        else c :: propUnesc (d :: rest)
      else c :: propUnesc (d :: rest)

/-- The value a reader extracts from a rendered Properties scalar, modulo
Properties' backslash escaping. -/
def dequoteProps (l : Str) : Str := propUnesc l

/-- The quoting trigger set exactly as claim C4 states it: whitespace,
dollar, double quote, backtick, backslash — without the single quote. -/
def claimC4Trigger (c : Char) : Bool :=
  jsWhitespace c || c == '$' || c == '"' || c == '`' || c == '\\'

/-- The duration-normalization behaviour exactly as claim C8 states it:
unit-suffixed strings and numbers pass through unchanged, every other value
is numerically coerced when possible and otherwise returned unchanged. -/
def claimC8FormatDuration (v : JVal) : JVal :=
  match v with
  | .vStr s =>
      if durationPat s then .vStr s
      else
        match jsNumber (.vStr s) with
        | some n => .vNum n
        | none => .vStr s
  | .vNum n => .vNum n
  | w =>
      match jsNumber w with
      | some n => .vNum n
      | none => w

/-- Comment-free lines of a rendered output: the lines not starting with
`#` (claim C7's notion of a non-header line). -/
def nonCommentLines (s : Str) : List Str :=
  (splitNl s).filter fun l => l.head? ≠ some '#'

/-- The storage behaviour exactly as claim C9 states it (modelled from the
claim / §7 of the spec): on quota failure evict old entries once, retry the
write exactly once, and report failure if the retry also fails. -/
def claimC9SetItem (quotaOk : StorageUtils.Store → Bool)
    (st : StorageUtils.Store) (k : Str) (v : JVal) :
    StorageUtils.SetItemResult :=
  let attempted := StorageUtils.storePut st k v
  if quotaOk attempted then ⟨attempted, true, 1⟩
  else
    let cleaned := StorageUtils.handleQuotaExceeded st
    let retried := StorageUtils.storePut cleaned k v
    if quotaOk retried then ⟨retried, true, 2⟩
    else ⟨cleaned, false, 2⟩

/-- The six load-configuration rules in claim C5's fixed declaration order,
each producing its message when its fields are present and violated. -/
def claimC5Rules : List (ValidationUtils.LoadData → List Str) :=
  [fun ld => match ld.users with
    | some u => if u < 1 then ["Users must be at least 1".data] else []
    | none => [],
   fun ld => match ld.duration with
    | some d => if d < 0 then ["Duration cannot be negative".data] else []
    | none => [],
   fun ld => match ld.duration, ld.rampUp with
    | some d, some r =>
        if d < r then
          ["Duration must be greater than or equal to Ramp-Up time".data]
        else []
    | _, _ => [],
   fun ld => match ld.minPause, ld.maxPause with
    | some a, some b =>
        if a > b then ["Min Pause cannot be greater than Max Pause".data]
        else []
    | _, _ => [],
   fun ld => match ld.warmupDuration with
    | some w => if w < 0 then ["Warmup Duration cannot be negative".data] else []
    | none => [],
   fun ld => match ld.warmupUsers with
    | some w => if w < 0 then ["Warmup Users cannot be negative".data] else []
    | none => []]

/-- The canonical document of claim C3's scenario:
`{test:{load:{pause:{min:30,max:10}}}}`. -/
def pauseScenarioDoc : JVal :=
  .vObj (.cons "test".data (.vObj (.cons "load".data (.vObj (.cons "pause".data
    (.vObj (.cons "min".data (.vNum 30)
      (.cons "max".data (.vNum 10) .nil))) .nil)) .nil)) .nil)

/-- A canonical document whose `pause.min` is the unparseable string
`"abc"` and whose `pause.max` is `10` (claim C10's witness input). -/
def pauseBadMinDoc : JVal :=
  .vObj (.cons "test".data (.vObj (.cons "load".data (.vObj (.cons "pause".data
    (.vObj (.cons "min".data (.vStr "abc".data)
      (.cons "max".data (.vNum 10) .nil))) .nil)) .nil)) .nil)

/-! ## Path rendering, leaf flattening, and well-formedness predicates -/

/-- The decimal digit string of a natural number (most significant first):
the specification of `Nat.repr`'s rendering. -/
def natDigitsSpec (n : Nat) : Str :=
  if h : n < 10 then [Nat.digitChar n]
  else natDigitsSpec (n / 10) ++ [Nat.digitChar (n % 10)]
  decreasing_by exact Nat.div_lt_self (by omega) (by omega)

/-- The ENV key of a nested path: the prefix extended segment by segment
through `toEnvKey`. -/
def envKeyPath (pre : Str) (p : List Str) : Str :=
  p.foldl EnvEncoder.toEnvKey pre

/-- The dotted Properties key of a nested path: the prefix extended segment
by segment exactly as `PropertiesFormatter.formatObject` builds `fullKey`. -/
def dotKeyPath (pre : Str) (p : List Str) : Str :=
  p.foldl (fun acc k => if acc = [] then k else acc ++ '.' :: k) pre

/-- The leaf paths and values that the ENV object walk emits: null leaves
are skipped, objects are descended into, everything else is a leaf. -/
def flattenEnv : JFields → List (List Str × JVal)
  | .nil => []
  | .cons k v rest =>
      (match v with
       | .vNull => []
       | .vObj g => (flattenEnv g).map fun pw => (k :: pw.1, pw.2)
       | w => [([k], w)]) ++ flattenEnv rest

/-- An ASCII letter or digit (key characters of a canonical document). -/
def keyChar (c : Char) : Bool :=
  (decide (97 ≤ c.toNat) && decide (c.toNat ≤ 122)) ||
  (decide (65 ≤ c.toNat) && decide (c.toNat ≤ 90)) ||
  (decide (48 ≤ c.toNat) && decide (c.toNat ≤ 57))

/-- A lowercase ASCII letter or digit (a single-word camelCase segment's
characters, the lossless case of the ENV key transform). -/
def lowerKeyChar (c : Char) : Bool :=
  (decide (97 ≤ c.toNat) && decide (c.toNat ≤ 122)) ||
  (decide (48 ≤ c.toNat) && decide (c.toNat ≤ 57))

/-- A non-empty key of ASCII letters and digits. -/
def goodKeyC1 (k : Str) : Bool := decide (k ≠ []) && k.all keyChar

/-- A non-empty single-word camelCase key: lowercase letters and digits. -/
def goodKey (k : Str) : Bool := decide (k ≠ []) && k.all lowerKeyChar

/-- A bare-safe string for the ENV round trip: one that the decoder will not
re-type as a boolean, an integer or a float. -/
def stableBare (s : Str) : Bool :=
  !(s == "true".data) && !(s == "false".data) &&
  !(decide (s ≠ []) && s.all isDigitC) && !(digitDotDigit s)

/-- A scalar leaf the ENV codec round-trips: booleans; non-negative
(integral) numbers; strings without a newline that are either quoted by the
encoder (they contain a special character) or bare-safe. -/
def goodLeaf : JVal → Bool
  | .vBool _ => true
  | .vNum n => decide (0 ≤ n)
  | .vStr s => decide ('\n' ∉ s) && (s.any EnvEncoder.envSpecial || stableBare s)
  | _ => false

/-- Whether a key occurs in an object's fields. -/
def keyMem (k : Str) : JFields → Bool
  | .nil => false
  | .cons k2 _ rest => k == k2 || keyMem k rest

mutual

/-- A round-trippable canonical branch: at every level the keys are
non-empty single-word camelCase segments without duplicates, and every
non-object value is a `goodLeaf`. -/
def goodDoc : JFields → Bool
  | .nil => true
  | .cons k v rest =>
      goodKey k && !(keyMem k rest) && goodVal v && goodDoc rest

/-- A round-trippable value: an object with a good body, or a good leaf. -/
def goodVal : JVal → Bool
  | .vObj g => goodDoc g
  | w => goodLeaf w

end

/-- The characters occurring in an ENV key produced by `toEnvKey` on good
segments: uppercase ASCII letters, digits, and the underscore. -/
def envKeyChar (c : Char) : Bool :=
  (decide (65 ≤ c.toNat) && decide (c.toNat ≤ 90)) ||
  (decide (48 ≤ c.toNat) && decide (c.toNat ≤ 57)) ||
  c == '_'

/-- One assignment of the `decode` fold: write a path/value pair into the
accumulated object with `setNestedValue`. -/
def writeEnv (fs : JFields) (pw : List Str × JVal) : JFields :=
  EnvEncoder.setNested fs pw.1 pw.2

/-- The sub-object `setNestedValue` descends into at a key: the stored
object if one is present, a fresh `{}` otherwise. -/
def subAt (fs : JFields) (k : Str) : JFields :=
  match fs.getField k with
  | some (.vObj g) => g
  | _ => .nil

/-! ## Small structural lemmas -/

/-- The escaped string is at least as long as the input. -/
theorem escDQ_length_le (s : Str) : s.length ≤ (EnvEncoder.escDQ s).length := by
  induction s with
  | nil => simp [EnvEncoder.escDQ]
  | cons c rest ih =>
      have h1 : EnvEncoder.escDQ (c :: rest) =
          (if c = '"' then ['\\', '"'] else [c]) ++ EnvEncoder.escDQ rest := by
        simp only [EnvEncoder.escDQ, List.flatMap_cons]
      rw [h1, List.length_append, List.length_cons]
      by_cases h : c = '"'
      · rw [if_pos h]
        simp only [List.length_cons, List.length_nil]
        omega
      · rw [if_neg h]
        simp only [List.length_cons, List.length_nil]
        omega

/-! ## Claim C3 — the `validate` pause scenario -/

/-- Claim C3 as stated is false: on `{test:{load:{pause:{min:30,max:10}}}}`
the four required-field checks also fire, so `errors` has five entries, not
only the pause message. -/
theorem claim_C3_counterexample :
    CanonicalMapper.validate pauseScenarioDoc =
      (false,
       ["test.simulation is required".data, "test.type is required".data,
        "test.environment.type is required".data,
        "test.environment.url is required".data, CanonicalMapper.pauseMsg]) ∧
    ["test.simulation is required".data, "test.type is required".data,
     "test.environment.type is required".data,
     "test.environment.url is required".data, CanonicalMapper.pauseMsg] ≠
      [CanonicalMapper.pauseMsg] :=
  ⟨by decide, by decide⟩

/-- Claim C3 (corrected): on the canonical input
`{test:{load:{pause:{min:30,max:10}}}}`, `CanonicalMapper.validate` returns
`valid: false` with the four required-field messages followed by
`"pause.min cannot be greater than pause.max"`. -/
theorem claim_C3 :
    CanonicalMapper.validate pauseScenarioDoc =
      (false,
       ["test.simulation is required".data, "test.type is required".data,
        "test.environment.type is required".data,
        "test.environment.url is required".data, CanonicalMapper.pauseMsg]) := by
  decide

/-! ## Claim C4 — the ENV quoting trigger set -/

/-- Claim C4 as stated is false: the string `'` (a single quote) contains
none of the claim's trigger characters, yet `escapeEnvValue` quotes it. -/
theorem claim_C4_counterexample :
    ("'".data.all fun c => !claimC4Trigger c) = true ∧
    EnvEncoder.escapeEnvValue "'".data = "\"'\"".data ∧
    EnvEncoder.escapeEnvValue "'".data ≠ "'".data :=
  ⟨by decide, by decide, by decide⟩

/-- Claim C4 (corrected): the ENV encoder wraps a string in double quotes
(escaping inner double quotes with a backslash) if and only if it contains
whitespace, `$`, `"`, a single quote, a backtick, or a backslash; every
other string is emitted bare. -/
theorem claim_C4 (s : Str) :
    (EnvEncoder.escapeEnvValue s = '"' :: EnvEncoder.escDQ s ++ ['"'] ↔
      ∃ c ∈ s, jsWhitespace c = true ∨ c = '$' ∨ c = '"' ∨ c = '\'' ∨
        c = '`' ∨ c = '\\') ∧
    (EnvEncoder.escapeEnvValue s = s ↔
      ∀ c ∈ s, ¬(jsWhitespace c = true ∨ c = '$' ∨ c = '"' ∨ c = '\'' ∨
        c = '`' ∨ c = '\\')) := by
  have hiff : s.any EnvEncoder.envSpecial = true ↔
      ∃ c ∈ s, jsWhitespace c = true ∨ c = '$' ∨ c = '"' ∨ c = '\'' ∨
        c = '`' ∨ c = '\\' := by
    simp [List.any_eq_true, EnvEncoder.envSpecial, or_assoc]
  have hlen : ('"' :: EnvEncoder.escDQ s ++ ['"']).length ≠ s.length := by
    have := escDQ_length_le s
    simp only [List.length_cons, List.length_append, List.length_singleton]
    omega
  have hne : '"' :: EnvEncoder.escDQ s ++ ['"'] ≠ s := fun h => hlen (by rw [h])
  by_cases h : s.any EnvEncoder.envSpecial = true
  · constructor
    · simp [EnvEncoder.escapeEnvValue, h, hiff.mp h]
    · constructor
      · intro hs
        rw [EnvEncoder.escapeEnvValue, if_pos h] at hs
        exact absurd hs hne
      · intro hall
        exact absurd (hiff.mp h) (by
          rintro ⟨c, hc, hp⟩
          exact hall c hc hp)
  · have h' : s.any EnvEncoder.envSpecial = false := by
      simpa using h
    constructor
    · constructor
      · intro hs
        rw [EnvEncoder.escapeEnvValue, if_neg (by simp [h'])] at hs
        exact absurd hs.symm hne
      · intro hex
        exact absurd (hiff.mpr hex) h
    · constructor
      · intro _
        intro c hc hp
        have : s.any EnvEncoder.envSpecial = true := hiff.mpr ⟨c, hc, hp⟩
        rw [this] at h'
        cases h'
      · intro _
        rw [EnvEncoder.escapeEnvValue, if_neg (by simp [h'])]

/-- Witness for claim C4's theorem at the concrete string `a/b.c`. -/
theorem claim_C4_witness :
    EnvEncoder.escapeEnvValue "a/b.c".data = "a/b.c".data :=
  (claim_C4 "a/b.c".data).2.mpr (by decide)

/-! ## Claim C5 — validateLoadConfig -/

/-- Claim C5 as stated is false: the duration-versus-ramp-up message the
code produces is `"Duration must be greater than or equal to Ramp-Up
time"`, not `"Duration must be ≥ Ramp-Up time"`. -/
theorem claim_C5_counterexample :
    ValidationUtils.validateLoadConfig { duration := some 5, rampUp := some 10 } =
      ["Duration must be greater than or equal to Ramp-Up time".data] ∧
    "Duration must be ≥ Ramp-Up time".data ∉
      ValidationUtils.validateLoadConfig { duration := some 5, rampUp := some 10 } :=
  ⟨by decide, by decide⟩

/-- Claim C5 (corrected): `validateLoadConfig` returns, in the fixed
declaration order of rules 1–6, exactly the messages of the rules whose
fields are present and violated (rule 3's message reading `"Duration must be
greater than or equal to Ramp-Up time"`); it is a total function, returning
the empty list when no rule is violated. -/
theorem claim_C5 (ld : ValidationUtils.LoadData) :
    ValidationUtils.validateLoadConfig ld =
      (claimC5Rules.map fun r => r ld).flatten := by
  simp [ValidationUtils.validateLoadConfig, claimC5Rules]

/-! ## Claim C6 — HOCON value rendering -/

/-- Claim C6 as stated is false: a null leaf is not rendered as the literal
`null` — the object renderer skips it entirely (no line at all), where the
claim predicts the line `  x = null`. -/
theorem claim_C6_counterexample :
    HoconFormatter.formatObject (.cons "x".data .vNull .nil) 1 = [] ∧
    ([] : List Str) ≠ ["  x = null".data] :=
  ⟨by decide, by decide⟩

/-- Claim C6 (corrected): the HOCON encoder skips null leaves entirely
(rendering `null` only inside arrays); booleans and numbers render bare;
strings matching `^\d+[smh]$` render bare; every other string renders
double-quoted with inner double quotes backslash-escaped; arrays render
bracketed with their elements joined by `", "` under the same rules. -/
theorem claim_C6 :
    HoconFormatter.formatValue .vNull = "null".data ∧
    (∀ b, HoconFormatter.formatValue (.vBool b) =
      if b then "true".data else "false".data) ∧
    (∀ n, HoconFormatter.formatValue (.vNum n) = intStr n) ∧
    (∀ s, HoconFormatter.formatValue (.vStr s) =
      if durationPat s then s else '"' :: EnvEncoder.escDQ s ++ ['"']) ∧
    (∀ xs, HoconFormatter.formatValue (.vArr xs) =
      '\x5b' :: HoconFormatter.arrJoin xs ++ ['\x5d']) ∧
    (∀ v rest, HoconFormatter.arrJoin (.cons v rest) =
      HoconFormatter.formatValue v ++
        (match rest with
         | .nil => []
         | _ => ',' :: ' ' :: HoconFormatter.arrJoin rest)) ∧
    (∀ k rest ind, HoconFormatter.formatObject (.cons k .vNull rest) ind =
      HoconFormatter.formatObject rest ind) := by
  refine ⟨rfl, fun b => rfl, fun n => rfl, fun s => rfl, fun xs => rfl,
    fun v rest => ?_, fun k rest ind => rfl⟩
  cases rest <;> simp [HoconFormatter.arrJoin]

/-! ## Claim C9 — preset persistence under quota failure -/

/-- Claim C9 as stated is false: on a quota failure the store performs its
cleanup but never re-attempts the write (one write attempt, not two as the
claimed evict-and-retry behaviour `claimC9SetItem` would make), and
`saveUserPresets` still reports success, so no error reaches its caller. -/
theorem claim_C9_counterexample :
    (StorageUtils.setItem (fun st => st.isEmpty) [] PresetService.STORAGE_KEY
      (.vArr .nil)).writes = 1 ∧
    (StorageUtils.setItem (fun st => st.isEmpty) [] PresetService.STORAGE_KEY
      (.vArr .nil)).ok = false ∧
    (claimC9SetItem (fun st => st.isEmpty) [] PresetService.STORAGE_KEY
      (.vArr .nil)).writes = 2 ∧
    (PresetService.saveUserPresets (fun st => st.isEmpty) [] (.vArr .nil)).2 =
      true :=
  ⟨by decide, by decide, by decide, by decide⟩

/-- Claim C9 (corrected): when persisting fails with a quota error, the
store runs one bounded recovery (evicting the oldest timestamped entries)
but does not retry the write; `setItem` reports the failure only through its
`false` return value, and `saveUserPresets` returns `true` to its caller —
no error propagates, and the caller's in-memory preset list (a pure
argument) is untouched. -/
theorem claim_C9 (q : StorageUtils.Store → Bool) (st : StorageUtils.Store)
    (k : Str) (v : JVal) (presets : JVal)
    (h : q (StorageUtils.storePut st k v) = false) :
    StorageUtils.setItem q st k v =
      ⟨StorageUtils.handleQuotaExceeded st, false, 1⟩ ∧
    (PresetService.saveUserPresets q st presets).2 = true := by
  constructor
  · simp [StorageUtils.setItem, h]
  · rfl

/-- Witness for claim C9's theorem on an always-full store. -/
theorem claim_C9_witness :
    StorageUtils.setItem (fun st => st.isEmpty) [] "k".data (.vNum 1) =
      ⟨StorageUtils.handleQuotaExceeded [], false, 1⟩ ∧
    (PresetService.saveUserPresets (fun st => st.isEmpty) [] (.vArr .nil)).2 =
      true :=
  ⟨(claim_C9 (fun st => st.isEmpty) [] "k".data (.vNum 1) (.vArr .nil)
      (by decide)).1,
   (claim_C9 (fun st => st.isEmpty) [] "k".data (.vNum 1) (.vArr .nil)
      (by decide)).2⟩

/-! ## Claim C8 — formatDuration -/

/-- Claim C8 as stated is false at `null`: `formatDuration(null)` returns
`null` unchanged, although numeric coercion is possible (`Number(null)` is
`0`), so the claimed coerce-when-possible behaviour would return `0`. -/
theorem claim_C8_counterexample :
    CanonicalMapper.formatDuration .vNull = .vNull ∧
    claimC8FormatDuration .vNull = .vNum 0 ∧
    JVal.vNull ≠ JVal.vNum 0 :=
  ⟨rfl, by decide, by decide⟩

/-- Claim C8 (corrected): `formatDuration` never throws; `formatDuration(0)`
is `0`, `"30s"` and `"abc"` pass through unchanged; null/undefined are
returned unchanged without coercion, and every other value follows the
claimed rule: unit-suffixed strings and numbers pass through, anything else
is numerically coerced when possible and otherwise returned unchanged. -/
theorem claim_C8 :
    CanonicalMapper.formatDuration (.vNum 0) = .vNum 0 ∧
    CanonicalMapper.formatDuration (.vStr "30s".data) = .vStr "30s".data ∧
    CanonicalMapper.formatDuration (.vStr "abc".data) = .vStr "abc".data ∧
    ∀ v, CanonicalMapper.formatDuration v =
      if v = .vNull then .vNull else claimC8FormatDuration v := by
  refine ⟨by decide, by decide, by decide, fun v => ?_⟩
  cases v with
  | vNull => simp [CanonicalMapper.formatDuration]
  | vStr s => simp [CanonicalMapper.formatDuration, claimC8FormatDuration]
  | vNum n => simp [CanonicalMapper.formatDuration, claimC8FormatDuration]
  | vBool b => simp [CanonicalMapper.formatDuration, claimC8FormatDuration]
  | vArr xs => simp [CanonicalMapper.formatDuration, claimC8FormatDuration]
  | vObj fs => simp [CanonicalMapper.formatDuration, claimC8FormatDuration]

/-! ## Claim C10 — parseDuration's malformed-input default -/

/-- Values that are neither numbers nor strings matching
`/^(\d+)([smh]?)$/` parse to `0`. -/
theorem parseDuration_eq_zero (v : JVal) (h1 : isNumV v = false)
    (h2 : pauseRegexMatches v = false) :
    CanonicalMapper.parseDuration v = 0 := by
  cases v with
  | vNum n => simp [isNumV] at h1
  | vStr s =>
      simp only [pauseRegexMatches, Bool.or_eq_false_iff,
        Bool.and_eq_false_iff] at h2
      obtain ⟨hd, hdur⟩ := h2
      rw [CanonicalMapper.parseDuration]
      rw [if_neg (by
        rintro ⟨hne, hall⟩
        rcases hd with hd | hd
        · simp [hne] at hd
        · rw [hall] at hd
          cases hd)]
      rw [durationPat] at hdur
      cases hlast : s.getLast? with
      | none => simp [hlast]
      | some u =>
          rw [hlast] at hdur
          simp only [Bool.and_eq_false_iff] at hdur
          have hcondfalse :
              ((u == 's' || u == 'm' || u == 'h') &&
                (decide (List.dropLast s ≠ []) &&
                  (List.dropLast s).all isDigitC)) = false := by
            rcases hdur with (h | h) | h <;> simp [h]
          simp only [hlast]
          rw [if_neg (by rw [hcondfalse]; exact Bool.false_ne_true)]
  | vNull => rfl
  | vBool b => rfl
  | vArr xs => rfl
  | vObj fs => rfl

/-- Claim C10 (confirmed): any value that is neither a number nor a string
matching `/^(\d+)([smh]?)$/` is parsed as `0` seconds, so a document whose
`pause.min` is unparseable never produces the pause-ordering error when
`pause.max` parses to a non-negative number of seconds. -/
theorem claim_C10 :
    (∀ v, isNumV v = false → pauseRegexMatches v = false →
       CanonicalMapper.parseDuration v = 0) ∧
    (∀ c pv mn mx,
       jsChain (jsChain (jsGet c "test".data) "load".data) "pause".data =
         some pv →
       jsGet pv "min".data = some mn → jsGet pv "max".data = some mx →
       isNumV mn = false → pauseRegexMatches mn = false →
       0 ≤ CanonicalMapper.parseDuration mx →
       CanonicalMapper.pauseMsg ∉ (CanonicalMapper.validate c).2) := by
  refine ⟨parseDuration_eq_zero, ?_⟩
  intro c pv mn mx hpv hmn hmx h1 h2 h3
  have hmin0 : CanonicalMapper.parseDuration mn = 0 :=
    parseDuration_eq_zero mn h1 h2
  have hpvobj : ∃ fs, pv = .vObj fs := by
    cases pv <;> simp [jsGet] at hmn ⊢
  obtain ⟨fs, rfl⟩ := hpvobj
  have hnotmem : ∀ (b : Prop) [Decidable b] (m : Str),
      ¬(CanonicalMapper.pauseMsg = m) →
      CanonicalMapper.pauseMsg ∉ (if b then [m] else []) := by
    intro b _ m hm
    split
    · simpa using hm
    · simp
  simp only [CanonicalMapper.validate, hpv, hmn, hmx, jsTruthy]
  rw [hmin0, if_neg (not_lt.mpr h3)]
  simp only [List.append_nil, List.mem_append, not_or]
  and_intros <;> first
    | exact hnotmem _ _ (by decide)
    | simp

/-- Witness for claim C10's validate part: `pause.min = "abc"`,
`pause.max = 10` produces no pause-ordering error. -/
theorem claim_C10_witness :
    CanonicalMapper.pauseMsg ∉ (CanonicalMapper.validate pauseBadMinDoc).2 :=
  claim_C10.2 pauseBadMinDoc
    (.vObj (.cons "min".data (.vStr "abc".data)
      (.cons "max".data (.vNum 10) .nil)))
    (.vStr "abc".data) (.vNum 10)
    (by decide) (by decide) (by decide) (by decide) (by decide) (by decide)

/-! ## Line splitting and joining -/

/-- Splitting never yields the empty list. -/
theorem splitNl_ne_nil (s : Str) : splitNl s ≠ [] := by
  induction s with
  | nil => simp [splitNl]
  | cons c rest ih =>
      rw [splitNl]
      by_cases h : c = '\n'
      · simp [h]
      · rw [if_neg h]
        obtain ⟨l, ls, he⟩ : ∃ l ls, splitNl rest = l :: ls := by
          cases hsp : splitNl rest with
          | nil => exact absurd hsp ih
          | cons l ls => exact ⟨l, ls, rfl⟩
        rw [he]
        simp

/-- Splitting distributes over an inserted newline. -/
theorem splitNl_append_nl (x y : Str) :
    splitNl (x ++ '\n' :: y) = splitNl x ++ splitNl y := by
  induction x with
  | nil => simp [splitNl]
  | cons c rest ih =>
      rw [List.cons_append, splitNl, splitNl]
      by_cases h : c = '\n'
      · rw [if_pos h, if_pos h, ih, List.cons_append]
      · rw [if_neg h, if_neg h, ih]
        obtain ⟨l, ls, he⟩ : ∃ l ls, splitNl rest = l :: ls := by
          cases hsp : splitNl rest with
          | nil => exact absurd hsp (splitNl_ne_nil rest)
          | cons l ls => exact ⟨l, ls, rfl⟩
        rw [he]
        simp

/-- A newline-free string splits into itself. -/
theorem splitNl_noNl (l : Str) (h : '\n' ∉ l) : splitNl l = [l] := by
  induction l with
  | nil => rfl
  | cons c rest ih =>
      have hc : c ≠ '\n' := fun hc => h (hc ▸ List.mem_cons_self c rest)
      have hr : '\n' ∉ rest := fun hr => h (List.mem_cons_of_mem c hr)
      rw [splitNl, if_neg hc, ih hr]
      simp

/-- Splitting the join of a non-empty list of lines re-splits each line. -/
theorem splitNl_joinNl (L : List Str) (h : L ≠ []) :
    splitNl (joinNl L) = L.flatMap splitNl := by
  induction L with
  | nil => exact absurd rfl h
  | cons l ls ih =>
      cases ls with
      | nil => simp [joinNl]
      | cons l2 ls2 =>
          rw [show joinNl (l :: l2 :: ls2) = l ++ '\n' :: joinNl (l2 :: ls2)
            from rfl]
          rw [splitNl_append_nl, ih (by simp)]
          simp [List.flatMap_cons]

/-- The non-comment lines of a header-plus-body output do not depend on the
header's timestamp: the two `#` header lines are dropped and the blank line
and body remain. -/
theorem nonCommentLines_header (h1 hg t : Str) (B : List Str)
    (hh1 : h1.head? = some '#') (hhg : hg.head? = some '#')
    (hnl1 : '\n' ∉ h1) (hnlg : '\n' ∉ hg) (ht : '\n' ∉ t) :
    nonCommentLines (joinNl ([h1, hg ++ t, []] ++ B)) =
      [] :: (B.flatMap splitNl).filter (fun l => l.head? ≠ some '#') := by
  obtain ⟨r1, rfl⟩ : ∃ r, h1 = '#' :: r := by
    cases h1 with
    | nil => cases hh1
    | cons c r => exact ⟨r, by injection hh1 with h; rw [h]⟩
  obtain ⟨rg, rfl⟩ : ∃ r, hg = '#' :: r := by
    cases hg with
    | nil => cases hhg
    | cons c r => exact ⟨r, by injection hhg with h; rw [h]⟩
  rw [nonCommentLines, splitNl_joinNl _ (by simp), List.flatMap_append]
  have e1 : splitNl ('#' :: r1) = ['#' :: r1] := splitNl_noNl _ hnl1
  have e2 : splitNl (('#' :: rg) ++ t) = [('#' :: rg) ++ t] := by
    refine splitNl_noNl _ ?_
    intro hmem
    rcases List.mem_append.mp hmem with hmem | hmem
    · exact hnlg hmem
    · exact ht hmem
  rw [show ([('#' :: r1), ('#' :: rg) ++ t, []] : List Str).flatMap splitNl =
      splitNl ('#' :: r1) ++ (splitNl (('#' :: rg) ++ t) ++
        (splitNl [] ++ [])) from rfl]
  rw [e1, e2]
  simp [splitNl, List.filter]

/-! ## Claim C7 — idempotence of the encoders -/

/-- Claim C7 as stated is false: the header comment embeds the generation
timestamp, so two encodings of the same document at different instants are
not byte-identical, for any of the three encoders. -/
theorem claim_C7_counterexample :
    EnvEncoder.encode "A".data ⟨.nil, .nil⟩ ≠
      EnvEncoder.encode "B".data ⟨.nil, .nil⟩ ∧
    HoconFormatter.format "A".data ⟨.nil, .nil⟩ ≠
      HoconFormatter.format "B".data ⟨.nil, .nil⟩ ∧
    PropertiesFormatter.format "A".data ⟨.nil, .nil⟩ ≠
      PropertiesFormatter.format "B".data ⟨.nil, .nil⟩ :=
  ⟨by decide, by decide, by decide⟩

/-- Claim C7 (corrected): for each of the three encoders, two encodings of
the same canonical document agree on every line outside the `#` header
comments — the outputs are byte-identical except for the timestamped
`# Generated:` comment line (and are byte-identical exactly when the two
generation instants render identically). -/
theorem claim_C7 (c : Canon) (t1 t2 : Str)
    (h1 : '\n' ∉ t1) (h2 : '\n' ∉ t2) :
    nonCommentLines (EnvEncoder.encode t1 c) =
      nonCommentLines (EnvEncoder.encode t2 c) ∧
    nonCommentLines (HoconFormatter.format t1 c) =
      nonCommentLines (HoconFormatter.format t2 c) ∧
    nonCommentLines (PropertiesFormatter.format t1 c) =
      nonCommentLines (PropertiesFormatter.format t2 c) := by
  refine ⟨?_, ?_, ?_⟩
  · rw [EnvEncoder.encode, EnvEncoder.encode, List.append_assoc,
      List.append_assoc,
      nonCommentLines_header _ _ _ _ (by decide) (by decide) (by decide)
        (by decide) h1,
      nonCommentLines_header _ _ _ _ (by decide) (by decide) (by decide)
        (by decide) h2]
  · rw [HoconFormatter.format, HoconFormatter.format, List.append_assoc,
      List.append_assoc,
      nonCommentLines_header _ _ _ _ (by decide) (by decide) (by decide)
        (by decide) h1,
      nonCommentLines_header _ _ _ _ (by decide) (by decide) (by decide)
        (by decide) h2]
  · rw [PropertiesFormatter.format, PropertiesFormatter.format,
      List.append_assoc, List.append_assoc,
      nonCommentLines_header _ _ _ _ (by decide) (by decide) (by decide)
        (by decide) h1,
      nonCommentLines_header _ _ _ _ (by decide) (by decide) (by decide)
        (by decide) h2]

/-- Witness for claim C7's theorem at two concrete timestamps. -/
theorem claim_C7_witness :
    nonCommentLines (EnvEncoder.encode "A".data ⟨.nil, .nil⟩) =
      nonCommentLines (EnvEncoder.encode "B".data ⟨.nil, .nil⟩) :=
  (claim_C7 ⟨.nil, .nil⟩ "A".data "B".data (by decide) (by decide)).1

/-! ## Character case-mapping lemmas -/

/-- `Char.ofNat` inverts `Char.toNat` below the surrogate range. -/
theorem char_toNat_ofNat (n : Nat) (h : n < 0xd800) : (Char.ofNat n).toNat = n := by
  simp [Char.ofNat, Nat.isValidChar]
  rw [dif_pos (Or.inl h)]
  simp [Char.ofNatAux, Char.toNat, UInt32.toNat, UInt32.ofNat']

/-- Characters with equal code points are equal. -/
theorem char_eq_of_toNat_eq {a b : Char} (h : a.toNat = b.toNat) : a = b := by
  have h2 := congrArg Char.ofNat h
  rwa [Char.ofNat_toNat, Char.ofNat_toNat] at h2

/-- Uppercasing a lowercase letter subtracts 32. -/
theorem toUpper_toNat_of_lower {c : Char} (h1 : 97 ≤ c.toNat) (h2 : c.toNat ≤ 122) :
    (Char.toUpper c).toNat = c.toNat - 32 := by
  simp only [Char.toUpper]
  rw [if_pos ⟨h1, h2⟩]
  exact char_toNat_ofNat _ (by omega)

/-- Uppercasing fixes everything outside the lowercase letters. -/
theorem toUpper_fix {c : Char} (h : ¬(97 ≤ c.toNat ∧ c.toNat ≤ 122)) :
    Char.toUpper c = c := by
  simp only [Char.toUpper]
  rw [if_neg h]

/-- Lowercasing an uppercase letter adds 32. -/
theorem toLower_toNat_of_upper {c : Char} (h1 : 65 ≤ c.toNat) (h2 : c.toNat ≤ 90) :
    (Char.toLower c).toNat = c.toNat + 32 := by
  simp only [Char.toLower]
  rw [if_pos ⟨h1, h2⟩]
  exact char_toNat_ofNat _ (by omega)

/-- Lowercasing fixes everything outside the uppercase letters. -/
theorem toLower_fix {c : Char} (h : ¬(65 ≤ c.toNat ∧ c.toNat ≤ 90)) :
    Char.toLower c = c := by
  simp only [Char.toLower]
  rw [if_neg h]

/-- Uppercasing a key character lands in the digits or uppercase letters. -/
theorem toUpper_keyChar_range {c : Char} (h : keyChar c = true) :
    (48 ≤ (Char.toUpper c).toNat ∧ (Char.toUpper c).toNat ≤ 57) ∨
    (65 ≤ (Char.toUpper c).toNat ∧ (Char.toUpper c).toNat ≤ 90) := by
  simp only [keyChar, Bool.or_eq_true, Bool.and_eq_true, decide_eq_true_eq] at h
  rcases h with (h | h) | h
  · right
    rw [toUpper_toNat_of_lower h.1 h.2]
    omega
  · right
    rw [toUpper_fix (by omega)]
    omega
  · left
    rw [toUpper_fix (by omega)]
    omega

/-- Lowercasing a key character lands in the digits or lowercase letters. -/
theorem toLower_keyChar_range {c : Char} (h : keyChar c = true) :
    (48 ≤ (Char.toLower c).toNat ∧ (Char.toLower c).toNat ≤ 57) ∨
    (97 ≤ (Char.toLower c).toNat ∧ (Char.toLower c).toNat ≤ 122) := by
  simp only [keyChar, Bool.or_eq_true, Bool.and_eq_true, decide_eq_true_eq] at h
  rcases h with (h | h) | h
  · right
    rw [toLower_fix (by omega)]
    omega
  · right
    rw [toLower_toNat_of_upper h.1 h.2]
    omega
  · left
    rw [toLower_fix (by omega)]
    omega

/-- Lower-then-upper round trip on single-word camelCase key characters. -/
theorem toLower_toUpper_lowerKey {c : Char} (h : lowerKeyChar c = true) :
    Char.toLower (Char.toUpper c) = c := by
  simp only [lowerKeyChar, Bool.or_eq_true, Bool.and_eq_true,
    decide_eq_true_eq] at h
  rcases h with h | h
  · have hu := toUpper_toNat_of_lower h.1 h.2
    have hl := toLower_toNat_of_upper (c := Char.toUpper c) (by omega) (by omega)
    exact char_eq_of_toNat_eq (by omega)
  · rw [toUpper_fix (by omega), toLower_fix (by omega)]

/-- A lowercase key character is a key character. -/
theorem lowerKeyChar_keyChar {c : Char} (h : lowerKeyChar c = true) :
    keyChar c = true := by
  simp only [lowerKeyChar, Bool.or_eq_true, Bool.and_eq_true,
    decide_eq_true_eq] at h
  simp only [keyChar, Bool.or_eq_true, Bool.and_eq_true, decide_eq_true_eq]
  tauto

/-- Key characters are not hyphens, so `toEnvKey`'s hyphen pass fixes them. -/
theorem keyChar_no_hyphen {c : Char} (h : keyChar c = true) :
    (if c = '-' then '_' else c) = c := by
  simp only [keyChar, Bool.or_eq_true, Bool.and_eq_true, decide_eq_true_eq] at h
  rw [if_neg]
  intro hc
  subst hc
  simp at h

/-! ## Decimal rendering lemmas -/

/-- Digit characters of values below ten are decimal digits. -/
theorem digitChar_isDigit {n : Nat} (h : n < 10) :
    isDigitC (Nat.digitChar n) = true := by
  interval_cases n <;> decide

/-- Every character of the decimal rendering is a digit. -/
theorem natDigitsSpec_all_digits (n : Nat) :
    ∀ c ∈ natDigitsSpec n, isDigitC c = true := by
  induction n using Nat.strong_induction_on with
  | _ n ih =>
      rw [natDigitsSpec]
      by_cases h : n < 10
      · rw [dif_pos h]
        intro c hc
        rw [List.mem_singleton] at hc
        subst hc
        exact digitChar_isDigit h
      · rw [dif_neg h]
        intro c hc
        rcases List.mem_append.mp hc with hc | hc
        · exact ih (n / 10) (Nat.div_lt_self (by omega) (by omega)) c hc
        · rw [List.mem_singleton] at hc
          subst hc
          exact digitChar_isDigit (Nat.mod_lt _ (by omega))

/-- The decimal rendering is never empty. -/
theorem natDigitsSpec_ne_nil (n : Nat) : natDigitsSpec n ≠ [] := by
  rw [natDigitsSpec]
  by_cases h : n < 10
  · rw [dif_pos h]
    simp
  · rw [dif_neg h]
    simp

/-- `Nat.toDigitsCore` with enough fuel computes the decimal rendering. -/
theorem toDigitsCore_eq_spec :
    ∀ (fuel n : Nat) (acc : List Char), n < fuel →
      Nat.toDigitsCore 10 fuel n acc = natDigitsSpec n ++ acc := by
  intro fuel
  induction fuel with
  | zero => intro n acc h; omega
  | succ f ih =>
      intro n acc h
      rw [Nat.toDigitsCore]
      by_cases h10 : n / 10 = 0
      · rw [if_pos h10]
        have hn : n < 10 := by omega
        rw [natDigitsSpec, dif_pos hn]
        have : n % 10 = n := Nat.mod_eq_of_lt hn
        rw [this]
        rfl
      · rw [if_neg h10]
        have hdiv : n / 10 < f := by
          have h1 : n / 10 < n := Nat.div_lt_self (by omega) (by omega)
          omega
        rw [ih (n / 10) (Nat.digitChar (n % 10) :: acc) hdiv]
        have hn : ¬n < 10 := by
          intro hc
          rw [Nat.div_eq_of_lt hc] at h10
          exact h10 rfl
        have hspec : natDigitsSpec n =
            natDigitsSpec (n / 10) ++ [Nat.digitChar (n % 10)] := by
          rw [natDigitsSpec]
          rw [dif_neg hn]
        rw [hspec]
        simp

/-- `Nat.repr` produces exactly the decimal rendering. -/
theorem natRepr_data (n : Nat) : (Nat.repr n).data = natDigitsSpec n := by
  rw [Nat.repr, Nat.toDigits]
  rw [toDigitsCore_eq_spec (n + 1) n [] (by omega)]
  simp [List.asString]

/-- The decimal rendering of a non-negative integer. -/
theorem intStr_nonneg (n : Int) (h : 0 ≤ n) :
    intStr n = natDigitsSpec n.toNat := by
  rw [intStr]
  obtain ⟨m, rfl⟩ := Int.eq_ofNat_of_zero_le h
  show (Int.repr (Int.ofNat m)).data = _
  rw [Int.repr]
  simp [natRepr_data]

/-- The decimal rendering of a negative integer: a minus sign and digits. -/
theorem intStr_neg (n : Int) (h : n < 0) :
    intStr n = '-' :: natDigitsSpec (-n).toNat := by
  rw [intStr]
  obtain ⟨m, rfl⟩ : ∃ m : Nat, n = Int.negSucc m := by
    cases n with
    | ofNat m => exact absurd h (not_lt.mpr (Int.ofNat_nonneg m))
    | negSucc m => exact ⟨m, rfl⟩
  show (Int.repr (Int.negSucc m)).data = _
  rw [Int.repr]
  rw [show ("-" ++ Nat.repr (m + 1)).data = '-' :: (Nat.repr (m + 1)).data from
    String.data_append "-" (Nat.repr (m + 1))]
  rw [natRepr_data]
  rw [show (-Int.negSucc m).toNat = m + 1 from by rw [Int.neg_negSucc]; rfl]

/-- Parsing inverts rendering: `digitsToNat` of the decimal rendering. -/
theorem digitsToNat_natDigitsSpec (n : Nat) :
    digitsToNat (natDigitsSpec n) = n := by
  induction n using Nat.strong_induction_on with
  | _ n ih =>
      rw [natDigitsSpec]
      by_cases h : n < 10
      · rw [dif_pos h]
        rw [digitsToNat]
        simp only [List.foldl_cons, List.foldl_nil]
        interval_cases n <;> decide
      · rw [dif_neg h]
        rw [digitsToNat, List.foldl_append]
        have h1 : digitsToNat (natDigitsSpec (n / 10)) = n / 10 :=
          ih (n / 10) (Nat.div_lt_self (by omega) (by omega))
        rw [digitsToNat] at h1
        rw [h1]
        simp only [List.foldl_cons, List.foldl_nil]
        have hd : (Nat.digitChar (n % 10)).toNat - '0'.toNat = n % 10 := by
          have : n % 10 < 10 := Nat.mod_lt _ (by omega)
          interval_cases hh : (n % 10) <;> decide
        rw [hd]
        omega


/-! ## Escape and unescape identities -/

/-- A flat map that keeps every present character is the identity. -/
theorem flatMap_id_of_mem {f : Char → Str} {s : Str}
    (h : ∀ c ∈ s, f c = [c]) : s.flatMap f = s := by
  induction s with
  | nil => simp
  | cons c rest ih =>
      rw [List.flatMap_cons, h c (List.mem_cons_self c rest),
        ih fun d hd => h d (List.mem_cons_of_mem c hd)]
      rfl

/-- Escaping double quotes fixes quote-free strings. -/
theorem escDQ_eq_self {s : Str} (h : '"' ∉ s) : EnvEncoder.escDQ s = s :=
  flatMap_id_of_mem fun c hc =>
    if_neg fun he : c = '"' => h (he ▸ hc)

/-- Unescaping fixes backslash-free strings. -/
theorem unescDQ_eq_self : ∀ {s : Str}, '\\' ∉ s → EnvEncoder.unescDQ s = s
  | [], _ => rfl
  | [c], _ => rfl
  | c :: d :: rest, h => by
      have hc : c ≠ '\\' := fun he => h (he ▸ List.mem_cons_self c (d :: rest))
      rw [EnvEncoder.unescDQ, if_neg fun hand => hc hand.1,
        unescDQ_eq_self fun he => h (List.mem_cons_of_mem c he)]

/-- JSON unescaping fixes backslash-free strings. -/
theorem jsonUnesc_eq_self : ∀ {s : Str}, '\\' ∉ s → jsonUnesc s = s
  | [], _ => rfl
  | [c], _ => rfl
  | c :: d :: rest, h => by
      have hc : c ≠ '\\' := fun he => h (he ▸ List.mem_cons_self c (d :: rest))
      rw [jsonUnesc, if_neg hc,
        jsonUnesc_eq_self fun he => h (List.mem_cons_of_mem c he)]

/-- Properties unescaping fixes backslash-free strings. -/
theorem propUnesc_eq_self : ∀ {s : Str}, '\\' ∉ s → propUnesc s = s
  | [], _ => rfl
  | [c], _ => rfl
  | c :: d :: rest, h => by
      have hc : c ≠ '\\' := fun he => h (he ▸ List.mem_cons_self c (d :: rest))
      rw [propUnesc, if_neg hc,
        propUnesc_eq_self fun he => h (List.mem_cons_of_mem c he)]

/-- The escaped form of a string never starts with a double quote. -/
theorem escDQ_head_ne_quote (s : Str) : (EnvEncoder.escDQ s).head? ≠ some '"' := by
  cases s with
  | nil => simp [EnvEncoder.escDQ]
  | cons c rest =>
      rw [show EnvEncoder.escDQ (c :: rest) =
        (if c = '"' then ['\\', '"'] else [c]) ++ EnvEncoder.escDQ rest from by
          simp only [EnvEncoder.escDQ, List.flatMap_cons]]
      by_cases h : c = '"'
      · rw [if_pos h]
        simp
      · rw [if_neg h]
        simpa using h

/-- Unescaping inverts escaping: `unescDQ (escDQ s) = s`. -/
theorem unescDQ_escDQ : ∀ s : Str, EnvEncoder.unescDQ (EnvEncoder.escDQ s) = s := by
  intro s
  induction s with
  | nil => rfl
  | cons c rest ih =>
      rw [show EnvEncoder.escDQ (c :: rest) =
        (if c = '"' then ['\\', '"'] else [c]) ++ EnvEncoder.escDQ rest from by
          simp only [EnvEncoder.escDQ, List.flatMap_cons]]
      have hnil : EnvEncoder.escDQ rest = [] → rest = [] := fun hesc =>
        List.eq_nil_of_length_eq_zero (by
          have := escDQ_length_le rest
          rw [hesc] at this
          simpa using this)
      by_cases h : c = '"'
      · rw [if_pos h, h]
        show EnvEncoder.unescDQ ('\\' :: '"' :: EnvEncoder.escDQ rest) = _
        cases hesc : EnvEncoder.escDQ rest with
        | nil =>
            rw [hnil hesc]
            rfl
        | cons e es =>
            rw [EnvEncoder.unescDQ, if_pos ⟨rfl, rfl⟩, ← hesc, ih]
      · rw [if_neg h]
        show EnvEncoder.unescDQ (c :: EnvEncoder.escDQ rest) = _
        cases hesc : EnvEncoder.escDQ rest with
        | nil =>
            rw [hnil hesc]
            rfl
        | cons e es =>
            have hne : ¬(c = '\\' ∧ e = '"') := by
              rintro ⟨h1, h2⟩
              have := escDQ_head_ne_quote rest
              rw [hesc, h2] at this
              simp at this
            rw [EnvEncoder.unescDQ, if_neg hne, ← hesc, ih]

/-! ## Trim and quote-stripping lemmas -/

/-- `dropWhile` fixes a list whose head fails the predicate. -/
theorem dropWhile_eq_self {p : Char → Bool} {l : Str}
    (h : ∀ hd, l.head? = some hd → p hd = false) : l.dropWhile p = l := by
  cases l with
  | nil => rfl
  | cons c rest =>
      rw [List.dropWhile_cons, if_neg]
      rw [h c rfl]
      simp

/-- Trimming fixes a string whose ends are not whitespace. -/
theorem jsTrim_eq_self {l : Str}
    (h1 : ∀ hd, l.head? = some hd → jsWhitespace hd = false)
    (h2 : ∀ lst, l.getLast? = some lst → jsWhitespace lst = false) :
    jsTrim l = l := by
  rw [jsTrim, dropWhile_eq_self h1,
    dropWhile_eq_self fun hd hh => h2 hd (by rwa [List.head?_reverse] at hh),
    List.reverse_reverse]

/-- Quote stripping fixes strings that do not start with a quote. -/
theorem stripDQ_eq_self {s : Str} (h : s.head? ≠ some '"') :
    EnvEncoder.stripDQ s = s := by
  rw [EnvEncoder.stripDQ, if_neg]
  rintro ⟨-, h2, -⟩
  exact h h2

/-- Quote stripping removes an explicit quote wrapper. -/
theorem stripDQ_quoted (s : Str) :
    EnvEncoder.stripDQ ('"' :: s ++ ['"']) = s := by
  rw [EnvEncoder.stripDQ, if_pos]
  · rw [show ('"' :: s ++ ['"']).drop 1 = s ++ ['"'] from rfl,
      List.dropLast_concat]
  · refine ⟨by simp, rfl, ?_⟩
    rw [show ('"' :: s ++ ['"'] : Str) = ('"' :: s) ++ ['"'] from by simp,
      List.getLast?_concat]

/-! ## Safe-character lemmas -/

/-- A character satisfying `all p` everywhere excludes failing characters. -/
theorem not_mem_of_all {p : Char → Bool} {s : Str} {c0 : Char}
    (hall : s.all p = true) (hc : p c0 = false) : c0 ∉ s := fun hmem => by
  rw [List.all_eq_true] at hall
  rw [hall c0 hmem] at hc
  cases hc

/-- A codec-safe string triggers no ENV quoting. -/
theorem safe_no_envSpecial {s : Str}
    (h : s.all (fun c => !codecBreaking c) = true) :
    s.any EnvEncoder.envSpecial = false := by
  rw [List.any_eq_false]
  intro c hc
  rw [List.all_eq_true] at h
  have h2 := h c hc
  simp only [codecBreaking, Bool.not_eq_true', Bool.or_eq_false_iff] at h2
  rw [h2.1.1.1.1]
  exact Bool.false_ne_true

/-- Codec-safe characters render as themselves under JSON escaping. -/
theorem jsonEscChar_id {c : Char} (h : codecBreaking c = false) :
    jsonEscChar c = [c] := by
  simp only [codecBreaking, Bool.or_eq_false_iff] at h
  obtain ⟨⟨⟨⟨henv, -⟩, -⟩, -⟩, hge⟩ := h
  simp only [EnvEncoder.envSpecial, Bool.or_eq_false_iff] at henv
  obtain ⟨⟨⟨⟨⟨-, -⟩, hdq⟩, -⟩, -⟩, hbs⟩ := henv
  have hge' : ¬(c.toNat < 0x20) := by simpa using hge
  have hdq' : c ≠ '"' := by simpa using hdq
  have hbs' : c ≠ '\\' := by simpa using hbs
  have hne : ∀ x : Char, x.toNat < 0x20 → c ≠ x := fun x hx he =>
    hge' (he ▸ hx)
  rw [jsonEscChar, if_neg hdq', if_neg hbs',
    if_neg (hne '\n' (by decide)), if_neg (hne '\r' (by decide)),
    if_neg (hne '\t' (by decide)),
    if_neg (fun he : c.toNat = 0x08 => hge' (by omega)),
    if_neg (fun he : c.toNat = 0x0c => hge' (by omega)),
    if_neg hge']

/-- A single global character replacement fixes strings lacking the
character. -/
theorem repC_eq_self {c : Char} {r s : Str} (h : c ∉ s) :
    PropertiesFormatter.repC c r s = s :=
  flatMap_id_of_mem fun x hx => if_neg fun he : x = c => h (he ▸ hx)

/-- The Properties escaping chain fixes codec-safe strings. -/
theorem escapeValue_eq_self {s : Str} (h : ∀ c ∈ s, codecBreaking c = false) :
    PropertiesFormatter.escapeValue s = s := by
  have hmem : ∀ c0 : Char, codecBreaking c0 = true → c0 ∉ s := fun c0 hc0 hm => by
    rw [h c0 hm] at hc0
    cases hc0
  rw [PropertiesFormatter.escapeValue,
    repC_eq_self (hmem '\\' (by decide)),
    repC_eq_self (hmem '\n' (by decide)),
    repC_eq_self (hmem '\r' (by decide)),
    repC_eq_self (hmem '\t' (by decide)),
    repC_eq_self (hmem '=' (by decide)),
    repC_eq_self (hmem '#' (by decide)),
    repC_eq_self (hmem '!' (by decide))]

/-! ## Cross-codec scalar agreement -/

/-- The four renderings of a codec-safe scalar all read back, modulo each
format's own quoting/escaping, to the same semantic text. -/
theorem dequote_agree (v : JVal) (hs : isScalarV v = true)
    (hsafe : scalarSafe v = true) :
    dequoteJson (jsonStringify v) = semText v ∧
    dequoteEnv (EnvEncoder.toEnvValue v) = semText v ∧
    dequoteHocon (HoconFormatter.formatValue v) = semText v ∧
    dequoteProps (PropertiesFormatter.formatValue v) = semText v := by
  cases v with
  | vNull => cases hs
  | vArr xs => cases hs
  | vObj fs => cases hs
  | vBool b => cases b <;> exact ⟨by decide, by decide, by decide, by decide⟩
  | vNum n =>
      have hchars : ∀ c ∈ intStr n, c = '-' ∨ isDigitC c = true := by
        intro c hc
        by_cases hn : 0 ≤ n
        · rw [intStr_nonneg n hn] at hc
          exact Or.inr (natDigitsSpec_all_digits _ c hc)
        · rw [intStr_neg n (by omega)] at hc
          rcases List.mem_cons.mp hc with hc | hc
          · exact Or.inl hc
          · exact Or.inr (natDigitsSpec_all_digits _ c hc)
      have hnq : '"' ∉ intStr n := fun hmem => by
        rcases hchars _ hmem with h | h
        · exact absurd h (by decide)
        · exact absurd h (by decide)
      have hnbs : '\\' ∉ intStr n := fun hmem => by
        rcases hchars _ hmem with h | h
        · exact absurd h (by decide)
        · exact absurd h (by decide)
      have hhead : (intStr n).head? ≠ some '"' := by
        cases hd : (intStr n).head? with
        | none => simp
        | some c =>
            have hmem : c ∈ intStr n := by
              cases hl : intStr n with
              | nil => rw [hl] at hd; cases hd
              | cons a t =>
                  rw [hl] at hd
                  injection hd with hd
                  rw [hd]
                  exact List.mem_cons_self c t
            intro he
            injection he with he
            rw [he] at hmem
            exact hnq hmem
      have hjson : dequoteJson (intStr n) = intStr n := by
        rw [dequoteJson, if_neg]
        rintro ⟨-, h2, -⟩
        exact hhead h2
      have henvv : dequoteEnv (intStr n) = intStr n := by
        rw [dequoteEnv, stripDQ_eq_self hhead, unescDQ_eq_self hnbs]
      have hprops : dequoteProps (intStr n) = intStr n := by
        rw [dequoteProps, propUnesc_eq_self hnbs]
      exact ⟨hjson, henvv, henvv, hprops⟩
  | vStr s =>
      have hall : s.all (fun c => !codecBreaking c) = true := hsafe
      have hfacts : ∀ c ∈ s, codecBreaking c = false := by
        intro c hc
        rw [List.all_eq_true] at hall
        have := hall c hc
        rwa [Bool.not_eq_true'] at this
      have hnq : '"' ∉ s :=
        not_mem_of_all hall (by decide)
      have hnbs : '\\' ∉ s :=
        not_mem_of_all hall (by decide)
      have hhead : s.head? ≠ some '"' := by
        cases s with
        | nil => simp
        | cons c rest =>
            intro he
            injection he with he
            exact hnq (he ▸ List.mem_cons_self c rest)
      have hspec : s.any EnvEncoder.envSpecial = false := safe_no_envSpecial hall
      have hescDQ : EnvEncoder.escDQ s = s := escDQ_eq_self hnq
      have hbare : dequoteEnv s = s := by
        rw [dequoteEnv, stripDQ_eq_self hhead, unescDQ_eq_self hnbs]
      have hquoted : dequoteEnv ('"' :: s ++ ['"']) = s := by
        rw [dequoteEnv, stripDQ_quoted, unescDQ_eq_self hnbs]
      refine ⟨?_, ?_, ?_, ?_⟩
      · rw [jsonStringify, flatMap_id_of_mem fun c hc => jsonEscChar_id (hfacts c hc)]
        rw [dequoteJson, if_pos]
        · rw [show ('"' :: s ++ ['"']).drop 1 = s ++ ['"'] from rfl,
            List.dropLast_concat, jsonUnesc_eq_self hnbs]
          rfl
        · refine ⟨by simp, rfl, ?_⟩
          rw [show ('"' :: s ++ ['"'] : Str) = ('"' :: s) ++ ['"'] from by simp,
            List.getLast?_concat]
      · rw [EnvEncoder.toEnvValue, EnvEncoder.escapeEnvValue,
          if_neg (by rw [hspec]; exact Bool.false_ne_true)]
        exact hbare
      · rw [HoconFormatter.formatValue]
        by_cases hdur : durationPat s
        · rw [if_pos hdur]
          exact hbare
        · rw [if_neg hdur, hescDQ]
          exact hquoted
      · rw [PropertiesFormatter.formatValue]
        by_cases hdur : durationPat s
        · rw [if_pos hdur, dequoteProps, propUnesc_eq_self hnbs]
          rfl
        · rw [if_neg hdur, escapeValue_eq_self hfacts, dequoteProps,
            propUnesc_eq_self hnbs]
          rfl

/-! ## Leaf-line containment lemmas -/

/-- List-style induction on an object's field list (no recursion into the
values). -/
theorem jfields_induction {motive : JFields → Prop} (hnil : motive .nil)
    (hcons : ∀ k v rest, motive rest → motive (.cons k v rest)) :
    ∀ fs, motive fs
  | .nil => hnil
  | .cons k v rest => hcons k v rest (jfields_induction hnil hcons rest)

/-- `getPath` on the empty object finds nothing. -/
theorem getPath_nil : ∀ q : List Str, JFields.getPath .nil q = none := by
  intro q
  cases q with
  | nil => rfl
  | cons a l =>
      cases l with
      | nil => rfl
      | cons b m => rfl

/-- The ENV object walk on a leaf entry emits its line first. -/
theorem encodeObject_cons_leaf {k : Str} {v : JVal} {rest : JFields} {pre : Str}
    (h1 : v ≠ .vNull) (h2 : ∀ g, v ≠ .vObj g) :
    EnvEncoder.encodeObject (.cons k v rest) pre =
      (EnvEncoder.toEnvKey pre k ++ '=' :: EnvEncoder.toEnvValue v) ::
        EnvEncoder.encodeObject rest pre := by
  cases v with
  | vNull => exact absurd rfl h1
  | vObj g => exact absurd rfl (h2 g)
  | vBool b => rfl
  | vNum n => rfl
  | vStr s => rfl
  | vArr xs => rfl

/-- Every leaf reachable by `getPath` contributes its `KEY=value` line to
the ENV object walk. -/
theorem env_line_mem :
    ∀ (p : List Str) (fs : JFields) (pre kk : Str) (v : JVal),
      fs.getPath (p ++ [kk]) = some v → v ≠ .vNull → (∀ g, v ≠ .vObj g) →
      (envKeyPath pre (p ++ [kk]) ++ '=' :: EnvEncoder.toEnvValue v) ∈
        EnvEncoder.encodeObject fs pre := by
  intro p
  induction p with
  | nil =>
      intro fs
      induction fs using jfields_induction with
      | hnil =>
          intro pre kk v h h1 h2
          rw [getPath_nil] at h
          cases h
      | hcons k w rest ihf =>
          intro pre kk v h h1 h2
          rw [List.nil_append] at h ⊢
          rw [show (JFields.cons k w rest).getPath [kk] =
            (JFields.cons k w rest).getField kk from rfl] at h
          rw [JFields.getField] at h
          by_cases hk : k = kk
          · rw [if_pos hk] at h
            injection h with h
            subst h
            subst hk
            rw [encodeObject_cons_leaf h1 h2]
            exact List.mem_cons_self _ _
          · rw [if_neg hk] at h
            have hmem := ihf pre kk v (by rw [List.nil_append]; exact h) h1 h2
            rw [List.nil_append] at hmem
            cases w with
            | vNull => exact hmem
            | vObj g => exact List.mem_append_right _ hmem
            | vBool b => exact List.mem_cons_of_mem _ hmem
            | vNum m => exact List.mem_cons_of_mem _ hmem
            | vStr s => exact List.mem_cons_of_mem _ hmem
            | vArr xs => exact List.mem_cons_of_mem _ hmem
  | cons a p' ihp =>
      intro fs
      induction fs using jfields_induction with
      | hnil =>
          intro pre kk v h h1 h2
          rw [getPath_nil] at h
          cases h
      | hcons k w rest ihf =>
          intro pre kk v h h1 h2
          obtain ⟨b, l, hbl⟩ : ∃ b l, p' ++ [kk] = b :: l := by
            cases p' with
            | nil => exact ⟨kk, [], rfl⟩
            | cons x xs => exact ⟨x, xs ++ [kk], rfl⟩
          rw [List.cons_append, hbl] at h
          rw [show (JFields.cons k w rest).getPath (a :: b :: l) =
            (match (JFields.cons k w rest).getField a with
             | some (.vObj g) => g.getPath (b :: l)
             | _ => none) from rfl] at h
          rw [JFields.getField] at h
          by_cases hk : k = a
          · rw [if_pos hk] at h
            subst hk
            cases w with
            | vObj g =>
                have hg : g.getPath (p' ++ [kk]) = some v := by
                  rw [hbl]
                  exact h
                have hrec := ihp g (EnvEncoder.toEnvKey pre k) kk v hg h1 h2
                rw [show envKeyPath pre ((k :: p') ++ [kk]) =
                  envKeyPath (EnvEncoder.toEnvKey pre k) (p' ++ [kk]) from rfl]
                exact List.mem_append_left _ hrec
            | vNull => exact Option.noConfusion h
            | vBool bb => exact Option.noConfusion h
            | vNum m => exact Option.noConfusion h
            | vStr s => exact Option.noConfusion h
            | vArr xs => exact Option.noConfusion h
          · rw [if_neg hk] at h
            have h' : rest.getPath ((a :: p') ++ [kk]) = some v := by
              rw [List.cons_append, hbl]
              exact h
            have hmem := ihf pre kk v h' h1 h2
            cases w with
            | vNull => exact hmem
            | vObj g => exact List.mem_append_right _ hmem
            | vBool bb => exact List.mem_cons_of_mem _ hmem
            | vNum m => exact List.mem_cons_of_mem _ hmem
            | vStr s => exact List.mem_cons_of_mem _ hmem
            | vArr xs => exact List.mem_cons_of_mem _ hmem

/-- The Properties object walk on a leaf entry emits its line first. -/
theorem propFormatObject_cons_leaf {k : Str} {v : JVal} {rest : JFields}
    {pre : Str} (h1 : v ≠ .vNull) (h2 : ∀ g, v ≠ .vObj g) :
    PropertiesFormatter.formatObject (.cons k v rest) pre =
      (PropertiesFormatter.normalizeKey (if pre = [] then k else pre ++ '.' :: k)
          ++ '=' :: PropertiesFormatter.formatValue v) ::
        PropertiesFormatter.formatObject rest pre := by
  cases v with
  | vNull => exact absurd rfl h1
  | vObj g => exact absurd rfl (h2 g)
  | vBool b => rfl
  | vNum n => rfl
  | vStr s => rfl
  | vArr xs => rfl

/-- Every leaf reachable by `getPath` contributes its dotted
`key=value` line to the Properties object walk. -/
theorem prop_line_mem :
    ∀ (p : List Str) (fs : JFields) (pre kk : Str) (v : JVal),
      fs.getPath (p ++ [kk]) = some v → v ≠ .vNull → (∀ g, v ≠ .vObj g) →
      (PropertiesFormatter.normalizeKey (dotKeyPath pre (p ++ [kk])) ++
          '=' :: PropertiesFormatter.formatValue v) ∈
        PropertiesFormatter.formatObject fs pre := by
  intro p
  induction p with
  | nil =>
      intro fs
      induction fs using jfields_induction with
      | hnil =>
          intro pre kk v h h1 h2
          rw [getPath_nil] at h
          cases h
      | hcons k w rest ihf =>
          intro pre kk v h h1 h2
          rw [List.nil_append] at h ⊢
          rw [show (JFields.cons k w rest).getPath [kk] =
            (JFields.cons k w rest).getField kk from rfl] at h
          rw [JFields.getField] at h
          by_cases hk : k = kk
          · rw [if_pos hk] at h
            injection h with h
            subst h
            subst hk
            rw [propFormatObject_cons_leaf h1 h2]
            exact List.mem_cons_self _ _
          · rw [if_neg hk] at h
            have hmem := ihf pre kk v (by rw [List.nil_append]; exact h) h1 h2
            rw [List.nil_append] at hmem
            cases w with
            | vNull => exact hmem
            | vObj g =>
                cases g with
                | nil => exact List.mem_cons_of_mem _ hmem
                | cons k2 v2 r2 => exact List.mem_append_right _ hmem
            | vBool b => exact List.mem_cons_of_mem _ hmem
            | vNum m => exact List.mem_cons_of_mem _ hmem
            | vStr s => exact List.mem_cons_of_mem _ hmem
            | vArr xs => exact List.mem_cons_of_mem _ hmem
  | cons a p' ihp =>
      intro fs
      induction fs using jfields_induction with
      | hnil =>
          intro pre kk v h h1 h2
          rw [getPath_nil] at h
          cases h
      | hcons k w rest ihf =>
          intro pre kk v h h1 h2
          obtain ⟨b, l, hbl⟩ : ∃ b l, p' ++ [kk] = b :: l := by
            cases p' with
            | nil => exact ⟨kk, [], rfl⟩
            | cons x xs => exact ⟨x, xs ++ [kk], rfl⟩
          rw [List.cons_append, hbl] at h
          rw [show (JFields.cons k w rest).getPath (a :: b :: l) =
            (match (JFields.cons k w rest).getField a with
             | some (.vObj g) => g.getPath (b :: l)
             | _ => none) from rfl] at h
          rw [JFields.getField] at h
          by_cases hk : k = a
          · rw [if_pos hk] at h
            subst hk
            cases w with
            | vObj g =>
                have hg : g.getPath (p' ++ [kk]) = some v := by
                  rw [hbl]
                  exact h
                have hrec := ihp g (if pre = [] then k else pre ++ '.' :: k)
                  kk v hg h1 h2
                rw [show dotKeyPath pre ((k :: p') ++ [kk]) =
                  dotKeyPath (if pre = [] then k else pre ++ '.' :: k)
                    (p' ++ [kk]) from rfl]
                cases g with
                | nil =>
                    rw [getPath_nil] at hg
                    cases hg
                | cons k2 v2 r2 => exact List.mem_append_left _ hrec
            | vNull => exact Option.noConfusion h
            | vBool bb => exact Option.noConfusion h
            | vNum m => exact Option.noConfusion h
            | vStr s => exact Option.noConfusion h
            | vArr xs => exact Option.noConfusion h
          · rw [if_neg hk] at h
            have h' : rest.getPath ((a :: p') ++ [kk]) = some v := by
              rw [List.cons_append, hbl]
              exact h
            have hmem := ihf pre kk v h' h1 h2
            cases w with
            | vNull => exact hmem
            | vObj g =>
                cases g with
                | nil => exact List.mem_cons_of_mem _ hmem
                | cons k2 v2 r2 => exact List.mem_append_right _ hmem
            | vBool bb => exact List.mem_cons_of_mem _ hmem
            | vNum m => exact List.mem_cons_of_mem _ hmem
            | vStr s => exact List.mem_cons_of_mem _ hmem
            | vArr xs => exact List.mem_cons_of_mem _ hmem

/-- The HOCON object walk on a leaf entry emits its line first. -/
theorem hoconFormatObject_cons_leaf {k : Str} {v : JVal} {rest : JFields}
    {ind : Nat} (h1 : v ≠ .vNull) (h2 : ∀ g, v ≠ .vObj g) :
    HoconFormatter.formatObject (.cons k v rest) ind =
      (HoconFormatter.indentStr ind ++ k ++
          ' ' :: '=' :: ' ' :: HoconFormatter.formatValue v) ::
        HoconFormatter.formatObject rest ind := by
  cases v with
  | vNull => exact absurd rfl h1
  | vObj g => exact absurd rfl (h2 g)
  | vBool b => rfl
  | vNum n => rfl
  | vStr s => rfl
  | vArr xs => rfl

/-- Every leaf reachable by `getPath` contributes its indented
`key = value` line to the HOCON object walk. -/
theorem hocon_line_mem :
    ∀ (p : List Str) (fs : JFields) (ind : Nat) (kk : Str) (v : JVal),
      fs.getPath (p ++ [kk]) = some v → v ≠ .vNull → (∀ g, v ≠ .vObj g) →
      (HoconFormatter.indentStr (ind + p.length) ++ kk ++
          ' ' :: '=' :: ' ' :: HoconFormatter.formatValue v) ∈
        HoconFormatter.formatObject fs ind := by
  intro p
  induction p with
  | nil =>
      intro fs
      induction fs using jfields_induction with
      | hnil =>
          intro ind kk v h h1 h2
          rw [getPath_nil] at h
          cases h
      | hcons k w rest ihf =>
          intro ind kk v h h1 h2
          rw [List.nil_append] at h
          rw [show (JFields.cons k w rest).getPath [kk] =
            (JFields.cons k w rest).getField kk from rfl] at h
          rw [JFields.getField] at h
          rw [show ([] : List Str).length = 0 from rfl, Nat.add_zero]
          by_cases hk : k = kk
          · rw [if_pos hk] at h
            injection h with h
            subst h
            subst hk
            rw [hoconFormatObject_cons_leaf h1 h2]
            exact List.mem_cons_self _ _
          · rw [if_neg hk] at h
            have hmem := ihf ind kk v (by rw [List.nil_append]; exact h) h1 h2
            rw [show ([] : List Str).length = 0 from rfl, Nat.add_zero] at hmem
            cases w with
            | vNull => exact hmem
            | vObj g =>
                cases g with
                | nil => exact List.mem_cons_of_mem _ hmem
                | cons k2 v2 r2 =>
                    refine List.mem_append_right _ hmem
            | vBool b => exact List.mem_cons_of_mem _ hmem
            | vNum m => exact List.mem_cons_of_mem _ hmem
            | vStr s => exact List.mem_cons_of_mem _ hmem
            | vArr xs => exact List.mem_cons_of_mem _ hmem
  | cons a p' ihp =>
      intro fs
      induction fs using jfields_induction with
      | hnil =>
          intro ind kk v h h1 h2
          rw [getPath_nil] at h
          cases h
      | hcons k w rest ihf =>
          intro ind kk v h h1 h2
          obtain ⟨b, l, hbl⟩ : ∃ b l, p' ++ [kk] = b :: l := by
            cases p' with
            | nil => exact ⟨kk, [], rfl⟩
            | cons x xs => exact ⟨x, xs ++ [kk], rfl⟩
          rw [List.cons_append, hbl] at h
          rw [show (JFields.cons k w rest).getPath (a :: b :: l) =
            (match (JFields.cons k w rest).getField a with
             | some (.vObj g) => g.getPath (b :: l)
             | _ => none) from rfl] at h
          rw [JFields.getField] at h
          by_cases hk : k = a
          · rw [if_pos hk] at h
            subst hk
            cases w with
            | vObj g =>
                have hg : g.getPath (p' ++ [kk]) = some v := by
                  rw [hbl]
                  exact h
                have hrec := ihp g (ind + 1) kk v hg h1 h2
                rw [show ind + (k :: p').length = (ind + 1) + p'.length from by
                  simp
                  omega]
                cases g with
                | nil =>
                    rw [getPath_nil] at hg
                    cases hg
                | cons k2 v2 r2 =>
                    refine List.mem_append_left _ (List.mem_cons_of_mem _ ?_)
                    exact List.mem_append_left _ hrec
            | vNull => exact Option.noConfusion h
            | vBool bb => exact Option.noConfusion h
            | vNum m => exact Option.noConfusion h
            | vStr s => exact Option.noConfusion h
            | vArr xs => exact Option.noConfusion h
          · rw [if_neg hk] at h
            have h' : rest.getPath ((a :: p') ++ [kk]) = some v := by
              rw [List.cons_append, hbl]
              exact h
            have hmem := ihf ind kk v h' h1 h2
            cases w with
            | vNull => exact hmem
            | vObj g =>
                cases g with
                | nil => exact List.mem_cons_of_mem _ hmem
                | cons k2 v2 r2 => exact List.mem_append_right _ hmem
            | vBool bb => exact List.mem_cons_of_mem _ hmem
            | vNum m => exact List.mem_cons_of_mem _ hmem
            | vStr s => exact List.mem_cons_of_mem _ hmem
            | vArr xs => exact List.mem_cons_of_mem _ hmem

/-! ## Newline-freeness of rendered lines -/

/-- A line of a joined output that contains no newline is one of the lines
of the split output. -/
theorem mem_splitNl_of_mem {line : Str} {L : List Str} (hL : L ≠ [])
    (hmem : line ∈ L) (hnl : '\n' ∉ line) : line ∈ splitNl (joinNl L) := by
  rw [splitNl_joinNl _ hL]
  exact List.mem_flatMap.mpr ⟨line, hmem, by
    rw [splitNl_noNl _ hnl]
    exact List.mem_singleton.mpr rfl⟩

/-- Key characters are never the newline. -/
theorem keyChar_ne_nl {c : Char} (h : keyChar c = true) : c ≠ '\n' := by
  simp only [keyChar, Bool.or_eq_true, Bool.and_eq_true, decide_eq_true_eq] at h
  intro he
  subst he
  have h10 : ('\n').toNat = 10 := by decide
  rcases h with (h | h) | h <;> omega

/-- The characters of every scalar rendering of the four codecs: the decimal
digits and minus sign of an integer. -/
theorem intStr_chars (n : Int) : ∀ c ∈ intStr n, c = '-' ∨ isDigitC c = true := by
  intro c hc
  by_cases hn : 0 ≤ n
  · rw [intStr_nonneg n hn] at hc
    exact Or.inr (natDigitsSpec_all_digits _ c hc)
  · rw [intStr_neg n (by omega)] at hc
    rcases List.mem_cons.mp hc with hc | hc
    · exact Or.inl hc
    · exact Or.inr (natDigitsSpec_all_digits _ c hc)

/-- Integer renderings contain no newline. -/
theorem intStr_no_nl (n : Int) : '\n' ∉ intStr n := fun hmem => by
  rcases intStr_chars n _ hmem with h | h
  · exact absurd h (by decide)
  · exact absurd h (by decide)

/-- The ENV rendering of a safe scalar contains no newline. -/
theorem toEnvValue_no_nl {v : JVal} (hs : isScalarV v = true)
    (hsafe : scalarSafe v = true) : '\n' ∉ EnvEncoder.toEnvValue v := by
  cases v with
  | vNull => cases hs
  | vArr xs => cases hs
  | vObj fs => cases hs
  | vBool b => cases b <;> decide
  | vNum n => exact intStr_no_nl n
  | vStr s =>
      have hall : s.all (fun c => !codecBreaking c) = true := hsafe
      have hspec : s.any EnvEncoder.envSpecial = false := safe_no_envSpecial hall
      rw [EnvEncoder.toEnvValue, EnvEncoder.escapeEnvValue,
        if_neg (by rw [hspec]; exact Bool.false_ne_true)]
      exact not_mem_of_all hall (by decide)

/-- The ENV key of a path over letter-digit segments contains no newline. -/
theorem envKeyPath_no_nl :
    ∀ (p : List Str) (pre : Str), '\n' ∉ pre →
      (∀ k ∈ p, goodKeyC1 k = true) → '\n' ∉ envKeyPath pre p := by
  intro p
  induction p with
  | nil => intro pre hpre _; exact hpre
  | cons k p' ih =>
      intro pre hpre hks
      rw [show envKeyPath pre (k :: p') =
        envKeyPath (EnvEncoder.toEnvKey pre k) p' from rfl]
      refine ih _ ?_ fun k2 hk2 => hks k2 (List.mem_cons_of_mem k hk2)
      have hk := hks k (List.mem_cons_self k p')
      have hkc : k.all keyChar = true := by
        simp only [goodKeyC1, Bool.and_eq_true] at hk
        exact hk.2
      have hnorm : '\n' ∉ (k.map fun c => if c = '-' then '_' else c).map
          Char.toUpper := by
        intro hmem
        rw [List.map_map] at hmem
        obtain ⟨c, hc, he⟩ := List.mem_map.mp hmem
        rw [List.all_eq_true] at hkc
        have hcc := hkc c hc
        rw [show (Char.toUpper ∘ fun c => if c = '-' then '_' else c) c =
          Char.toUpper (if c = '-' then '_' else c) from rfl,
          keyChar_no_hyphen hcc] at he
        rcases toUpper_keyChar_range hcc with hr | hr <;>
          · rw [he] at hr
            revert hr
            decide
      rw [EnvEncoder.toEnvKey]
      by_cases hp : pre = []
      · rw [if_pos hp]
        exact hnorm
      · rw [if_neg hp]
        intro hmem
        rcases List.mem_append.mp hmem with hm | hm
        · exact hpre hm
        · rcases List.mem_cons.mp hm with hm | hm
          · exact absurd hm.symm (by decide)
          · rcases List.mem_cons.mp hm with hm | hm
            · exact absurd hm.symm (by decide)
            · exact hnorm hm

/-- The dotted key of a path over letter-digit segments contains no newline. -/
theorem dotKeyPath_no_nl :
    ∀ (p : List Str) (pre : Str), '\n' ∉ pre →
      (∀ k ∈ p, goodKeyC1 k = true) → '\n' ∉ dotKeyPath pre p := by
  intro p
  induction p with
  | nil => intro pre hpre _; exact hpre
  | cons k p' ih =>
      intro pre hpre hks
      rw [show dotKeyPath pre (k :: p') =
        dotKeyPath (if pre = [] then k else pre ++ '.' :: k) p' from rfl]
      have hk := hks k (List.mem_cons_self k p')
      have hkc : k.all keyChar = true := by
        simp only [goodKeyC1, Bool.and_eq_true] at hk
        exact hk.2
      have hknl : '\n' ∉ k := fun hm => by
        rw [List.all_eq_true] at hkc
        exact keyChar_ne_nl (hkc _ hm) rfl
      refine ih _ ?_ fun k2 hk2 => hks k2 (List.mem_cons_of_mem k hk2)
      by_cases hp : pre = []
      · rw [if_pos hp]
        exact hknl
      · rw [if_neg hp]
        intro hmem
        rcases List.mem_append.mp hmem with hm | hm
        · exact hpre hm
        · rcases List.mem_cons.mp hm with hm | hm
          · exact absurd hm.symm (by decide)
          · exact hknl hm

/-- Lowercasing a newline-free string stays newline-free. -/
theorem map_toLower_no_nl {l : Str} (h : '\n' ∉ l) :
    '\n' ∉ l.map Char.toLower := by
  intro hmem
  obtain ⟨c, hc, he⟩ := List.mem_map.mp hmem
  by_cases hr : 65 ≤ c.toNat ∧ c.toNat ≤ 90
  · have h2 := toLower_toNat_of_upper hr.1 hr.2
    rw [he] at h2
    have h10 : ('\n').toNat = 10 := by decide
    omega
  · rw [toLower_fix hr] at he
    exact h (he ▸ hc)

/-- The Properties rendering of a safe scalar contains no newline. -/
theorem propFormatValue_no_nl {v : JVal} (hs : isScalarV v = true)
    (hsafe : scalarSafe v = true) :
    '\n' ∉ PropertiesFormatter.formatValue v := by
  cases v with
  | vNull => cases hs
  | vArr xs => cases hs
  | vObj fs => cases hs
  | vBool b => cases b <;> decide
  | vNum n => exact intStr_no_nl n
  | vStr s =>
      have hall : s.all (fun c => !codecBreaking c) = true := hsafe
      have hnnl : '\n' ∉ s := not_mem_of_all hall (by decide)
      rw [PropertiesFormatter.formatValue]
      by_cases hdur : durationPat s
      · rw [if_pos hdur]
        exact hnnl
      · rw [if_neg hdur,
          escapeValue_eq_self fun c hc => by
            rw [List.all_eq_true] at hall
            have := hall c hc
            rwa [Bool.not_eq_true'] at this]
        exact hnnl

/-- The HOCON rendering of a safe scalar contains no newline. -/
theorem hoconFormatValue_no_nl {v : JVal} (hs : isScalarV v = true)
    (hsafe : scalarSafe v = true) :
    '\n' ∉ HoconFormatter.formatValue v := by
  cases v with
  | vNull => cases hs
  | vArr xs => cases hs
  | vObj fs => cases hs
  | vBool b => cases b <;> decide
  | vNum n => exact intStr_no_nl n
  | vStr s =>
      have hall : s.all (fun c => !codecBreaking c) = true := hsafe
      have hnnl : '\n' ∉ s := not_mem_of_all hall (by decide)
      have hnq : '"' ∉ s := not_mem_of_all hall (by decide)
      rw [HoconFormatter.formatValue]
      by_cases hdur : durationPat s
      · rw [if_pos hdur]
        exact hnnl
      · rw [if_neg hdur, escDQ_eq_self hnq]
        intro hmem
        rcases List.mem_cons.mp hmem with hm | hm
        · exact absurd hm.symm (by decide)
        · rcases List.mem_append.mp hm with hm | hm
          · exact hnnl hm
          · rcases List.mem_singleton.mp hm with hm
            exact absurd hm (by decide)

/-- The indentation prefix contains no newline. -/
theorem indentStr_no_nl (n : Nat) : '\n' ∉ HoconFormatter.indentStr n := by
  intro hmem
  rw [HoconFormatter.indentStr] at hmem
  obtain ⟨l, hl, hcl⟩ := List.mem_flatten.mp hmem
  rw [List.eq_of_mem_replicate hl] at hcl
  revert hcl
  decide

/-! ## Claim C1 — cross-codec scalar agreement -/

/-- Claim C1 (confirmed): for a canonical document and any scalar leaf
without codec-breaking characters, the four encoders agree on the leaf's
semantic value — the JSON, ENV, HOCON and Properties renderings all read
back, modulo each format's own quoting/escaping, to the same text, and the
leaf's `key=value` line is present in the ENV, Properties and HOCON
outputs at the corresponding key. -/
theorem claim_C1 (t : Str) (c : Canon) (q : List Str) (kk : Str) (v : JVal)
    (hget : c.test.getPath (q ++ [kk]) = some v)
    (hscalar : isScalarV v = true) (hsafe : scalarSafe v = true)
    (hkeys : ∀ k ∈ q ++ [kk], goodKeyC1 k = true) :
    dequoteJson (jsonStringify v) = semText v ∧
    dequoteEnv (EnvEncoder.toEnvValue v) = semText v ∧
    dequoteHocon (HoconFormatter.formatValue v) = semText v ∧
    dequoteProps (PropertiesFormatter.formatValue v) = semText v ∧
    (envKeyPath "TEST".data (q ++ [kk]) ++ '=' :: EnvEncoder.toEnvValue v) ∈
      splitNl (EnvEncoder.encode t c) ∧
    (PropertiesFormatter.normalizeKey (dotKeyPath "test".data (q ++ [kk])) ++
        '=' :: PropertiesFormatter.formatValue v) ∈
      splitNl (PropertiesFormatter.format t c) ∧
    (HoconFormatter.indentStr (1 + q.length) ++ kk ++
        ' ' :: '=' :: ' ' :: HoconFormatter.formatValue v) ∈
      splitNl (HoconFormatter.format t c) := by
  have hnn : v ≠ .vNull := fun he => by rw [he] at hscalar; cases hscalar
  have hno : ∀ g, v ≠ .vObj g := fun g he => by rw [he] at hscalar; cases hscalar
  have hd := dequote_agree v hscalar hsafe
  have hkk : goodKeyC1 kk = true :=
    hkeys kk (List.mem_append_right q (List.mem_singleton.mpr rfl))
  have hkknl : '\n' ∉ kk := fun hm => by
    have hkc : kk.all keyChar = true := by
      simp only [goodKeyC1, Bool.and_eq_true] at hkk
      exact hkk.2
    rw [List.all_eq_true] at hkc
    exact keyChar_ne_nl (hkc _ hm) rfl
  refine ⟨hd.1, hd.2.1, hd.2.2.1, hd.2.2.2, ?_, ?_, ?_⟩
  · have hline := env_line_mem q c.test "TEST".data kk v hget hnn hno
    have hnl : '\n' ∉ envKeyPath "TEST".data (q ++ [kk]) ++
        '=' :: EnvEncoder.toEnvValue v := by
      intro hmem
      rcases List.mem_append.mp hmem with hm | hm
      · exact envKeyPath_no_nl _ _ (by decide) hkeys hm
      · rcases List.mem_cons.mp hm with hm | hm
        · exact absurd hm.symm (by decide)
        · exact toEnvValue_no_nl hscalar hsafe hm
    rw [EnvEncoder.encode]
    refine mem_splitNl_of_mem (by simp) ?_ hnl
    exact List.mem_append_right _ (List.mem_cons_of_mem _ hline)
  · have hline := prop_line_mem q c.test "test".data kk v hget hnn hno
    have hnl : '\n' ∉ PropertiesFormatter.normalizeKey
        (dotKeyPath "test".data (q ++ [kk])) ++
        '=' :: PropertiesFormatter.formatValue v := by
      intro hmem
      rcases List.mem_append.mp hmem with hm | hm
      · exact map_toLower_no_nl
          (dotKeyPath_no_nl _ _ (by decide) hkeys) hm
      · rcases List.mem_cons.mp hm with hm | hm
        · exact absurd hm.symm (by decide)
        · exact propFormatValue_no_nl hscalar hsafe hm
    rw [PropertiesFormatter.format]
    refine mem_splitNl_of_mem (by simp) ?_ hnl
    exact List.mem_append_right _ (List.mem_cons_of_mem _ hline)
  · have hline := hocon_line_mem q c.test 1 kk v hget hnn hno
    have hnl : '\n' ∉ HoconFormatter.indentStr (1 + q.length) ++ kk ++
        ' ' :: '=' :: ' ' :: HoconFormatter.formatValue v := by
      intro hmem
      rcases List.mem_append.mp hmem with hm | hm
      · rcases List.mem_append.mp hm with hm | hm
        · exact indentStr_no_nl _ hm
        · exact hkknl hm
      · rcases List.mem_cons.mp hm with hm | hm
        · exact absurd hm.symm (by decide)
        · rcases List.mem_cons.mp hm with hm | hm
          · exact absurd hm.symm (by decide)
          · rcases List.mem_cons.mp hm with hm | hm
            · exact absurd hm.symm (by decide)
            · exact hoconFormatValue_no_nl hscalar hsafe hm
    rw [HoconFormatter.format]
    refine mem_splitNl_of_mem (by simp) ?_ hnl
    refine List.mem_append_right _ (List.mem_cons_of_mem _ ?_)
    exact List.mem_append_left _ hline

/-- Witness for claim C1 at the leaf `test.environment.url =
"https://x/y"`. -/
theorem claim_C1_witness :
    (envKeyPath "TEST".data (["environment".data] ++ ["url".data]) ++
        '=' :: EnvEncoder.toEnvValue (.vStr "https://x/y".data)) ∈
      splitNl (EnvEncoder.encode "ts".data
        ⟨.nil, .cons "environment".data
          (.vObj (.cons "url".data (.vStr "https://x/y".data) .nil)) .nil⟩) :=
  (claim_C1 "ts".data
    ⟨.nil, .cons "environment".data
      (.vObj (.cons "url".data (.vStr "https://x/y".data) .nil)) .nil⟩
    ["environment".data] "url".data (.vStr "https://x/y".data)
    (by decide) (by decide) (by decide) (by decide)).2.2.2.2.1

/-! ## ENV round-trip: character and tokenization lemmas -/

/-- Characters with different code points compare unequal under `==`. -/
theorem beq_false_of_toNat_ne {c d : Char} (h : c.toNat ≠ d.toNat) :
    (c == d) = false := by
  rw [beq_eq_false_iff_ne]
  intro he
  exact h (he ▸ rfl)

/-- A character in a Boolean class differs from any character outside it. -/
theorem ne_of_class {p : Char → Bool} {c x : Char} (h : p c = true)
    (hx : p x = false) : c ≠ x := fun he => by
  rw [he, hx] at h
  cases h

/-- The code-point range of a decimal digit. -/
theorem isDigit_toNat {c : Char} (h : isDigitC c = true) :
    48 ≤ c.toNat ∧ c.toNat ≤ 57 := by
  simp only [isDigitC, Bool.and_eq_true, decide_eq_true_eq, Char.le_def] at h
  exact h

/-- A head element is a member. -/
theorem memOfHead {l : Str} {a : Char} (h : l.head? = some a) : a ∈ l := by
  cases l with
  | nil => cases h
  | cons b t =>
      injection h with h
      subst h
      exact List.mem_cons_self _ _

/-- A last element is a member. -/
theorem memOfLast {l : Str} {a : Char} (h : l.getLast? = some a) : a ∈ l := by
  rw [← List.head?_reverse] at h
  exact List.mem_reverse.mp (memOfHead h)

/-- ENV key characters are not JavaScript whitespace. -/
theorem envKeyChar_not_ws {c : Char} (h : envKeyChar c = true) :
    jsWhitespace c = false := by
  simp only [envKeyChar, Bool.or_eq_true, Bool.and_eq_true, decide_eq_true_eq,
    beq_iff_eq] at h
  have hn : (65 ≤ c.toNat ∧ c.toNat ≤ 90) ∨ (48 ≤ c.toNat ∧ c.toNat ≤ 57) ∨
      c.toNat = 95 := by
    rcases h with (h | h) | h
    · exact Or.inl h
    · exact Or.inr (Or.inl h)
    · subst h
      exact Or.inr (Or.inr rfl)
  simp only [jsWhitespace, Bool.or_eq_false_iff, Bool.and_eq_false_iff,
    beq_eq_false_iff_ne, ne_eq, decide_eq_false_iff_not, not_le]
  omega

/-- Decimal digits are not JavaScript whitespace. -/
theorem digit_not_ws {c : Char} (h : isDigitC c = true) :
    jsWhitespace c = false := by
  have hn := isDigit_toNat h
  simp only [jsWhitespace, Bool.or_eq_false_iff, Bool.and_eq_false_iff,
    beq_eq_false_iff_ne, ne_eq, decide_eq_false_iff_not, not_le]
  omega

/-- Decimal digits trigger no ENV quoting. -/
theorem digit_not_envSpecial {c : Char} (h : isDigitC c = true) :
    EnvEncoder.envSpecial c = false := by
  have hn := isDigit_toNat h
  rw [EnvEncoder.envSpecial, digit_not_ws h,
    beq_false_of_toNat_ne (by rw [show ('$').toNat = 36 from by decide]; omega),
    beq_false_of_toNat_ne (by rw [show ('"').toNat = 34 from by decide]; omega),
    beq_false_of_toNat_ne (by rw [show ('\'').toNat = 39 from by decide]; omega),
    beq_false_of_toNat_ne (by rw [show ('`').toNat = 96 from by decide]; omega),
    beq_false_of_toNat_ne (by rw [show ('\\').toNat = 92 from by decide]; omega)]
  rfl

/-- Trimming a string whose first character is not whitespace keeps that
character in front. -/
theorem trim_head {c : Char} (r : Str) (h : jsWhitespace c = false) :
    (jsTrim (c :: r)).head? = some c := by
  rw [jsTrim, List.dropWhile_cons, if_neg (by rw [h]; simp)]
  have hrd : ((c :: r).reverse.dropWhile jsWhitespace).reverse =
      List.rdropWhile jsWhitespace (c :: r) := rfl
  rw [hrd]
  have hne : List.rdropWhile jsWhitespace (c :: r) ≠ [] := by
    rw [Ne, List.rdropWhile_eq_nil_iff]
    push_neg
    exact ⟨c, List.mem_cons_self _ _, by rw [h]; exact Bool.false_ne_true⟩
  obtain ⟨t, ht⟩ := List.rdropWhile_prefix jsWhitespace (c :: r)
  cases hres : List.rdropWhile jsWhitespace (c :: r) with
  | nil => exact absurd hres hne
  | cons a u =>
      rw [hres] at ht
      rw [List.cons_append] at ht
      injection ht with h1 _
      rw [h1]
      rfl

/-- Splitting on a double underscore steps over a separator-free head
character. -/
theorem splitDU_cons_ne {a : Char} (rest : Str) (ha : a ≠ '_') :
    splitDU (a :: rest) =
      match splitDU rest with
      | [] => [[a]]
      | l :: ls => (a :: l) :: ls := by
  rw [splitDU.eq_def]
  split
  · simp_all
  · simp_all
  · rename_i heq
    injection heq with h1 h2
    subst h1
    subst h2
    rfl

/-- A separator-free string splits into itself. -/
theorem splitDU_no_sep : ∀ (A : Str), '_' ∉ A → splitDU A = [A] := by
  intro A
  induction A with
  | nil => intro _; rfl
  | cons a A' ih =>
      intro h
      have ha : a ≠ '_' := fun he => h (he ▸ List.mem_cons_self a A')
      have hA : '_' ∉ A' := fun hm => h (List.mem_cons_of_mem a hm)
      rw [splitDU_cons_ne A' ha, ih hA]

/-- Splitting peels one leading separator-free piece. -/
theorem splitDU_sep : ∀ (A B : Str), '_' ∉ A →
    splitDU (A ++ '_' :: '_' :: B) = A :: splitDU B := by
  intro A
  induction A with
  | nil => intro B _; rfl
  | cons a A' ih =>
      intro B h
      have ha : a ≠ '_' := fun he => h (he ▸ List.mem_cons_self a A')
      have hA : '_' ∉ A' := fun hm => h (List.mem_cons_of_mem a hm)
      rw [List.cons_append, splitDU_cons_ne _ ha, ih B hA]

/-- Splitting at the first equals sign of an explicit key/value line. -/
theorem splitEqAux_append : ∀ (K V : Str), '=' ∉ K →
    splitEqAux (K ++ '=' :: V) = some (K, V) := by
  intro K
  induction K with
  | nil => intro V _; simp [splitEqAux]
  | cons a K' ih =>
      intro V h
      have ha : a ≠ '=' := fun he => h (he ▸ List.mem_cons_self a K')
      rw [List.cons_append, splitEqAux, if_neg ha,
        ih V fun hm => h (List.mem_cons_of_mem a hm)]

/-- The key/value regular expression accepts an explicit line with a
non-empty, equals-free key. -/
theorem splitFirstEq_append {K V : Str} (hne : K ≠ []) (h : '=' ∉ K) :
    splitFirstEq (K ++ '=' :: V) = some (K, V) := by
  rw [splitFirstEq, splitEqAux_append K V h]
  exact if_neg hne

/-- The element at which `dropWhile` stops fails the predicate. -/
theorem dropWhile_head_false {p : Char → Bool} :
    ∀ (s : Str) {c t}, s.dropWhile p = c :: t → p c = false := by
  intro s
  induction s with
  | nil => intro c t h; cases h
  | cons a r ih =>
      intro c t h
      rw [List.dropWhile_cons] at h
      by_cases hp : p a = true
      · rw [if_pos hp] at h
        exact ih h
      · rw [if_neg hp] at h
        injection h with h1 _
        subst h1
        exact Bool.eq_false_iff.mpr hp

/-- Every character of a float-shaped string is a digit or the dot. -/
theorem digitDotDigit_chars {s : Str} (h : digitDotDigit s = true) :
    ∀ c ∈ s, isDigitC c = true ∨ c = '.' := by
  simp only [digitDotDigit, Bool.and_eq_true, decide_eq_true_eq] at h
  obtain ⟨⟨⟨⟨h1, h2⟩, h3⟩, h4⟩, h5⟩ := h
  intro c hc
  rw [← List.takeWhile_append_dropWhile (p := fun c => decide (c ≠ '.'))
    (l := s)] at hc
  rcases List.mem_append.mp hc with hm | hm
  · exact Or.inl (List.all_eq_true.mp h2 c hm)
  · cases hdw : s.dropWhile (fun c => decide (c ≠ '.')) with
    | nil => rw [hdw] at hm; cases hm
    | cons c1 t =>
        have hc1 : c1 = '.' := by
          have := dropWhile_head_false s hdw
          simpa using this
        rw [hdw] at hm
        rcases List.mem_cons.mp hm with hm | hm
        · exact Or.inr (hm.trans hc1)
        · refine Or.inl (List.all_eq_true.mp h5 c ?_)
          rw [hdw]
          simpa using hm

/-- The camelizing replacement fixes underscore-free strings. -/
theorem camelize_id : ∀ {s : Str}, (∀ c ∈ s, c ≠ '_') →
    EnvEncoder.camelize s = s := by
  intro s
  induction s with
  | nil => intro _; rfl
  | cons a rest ih =>
      intro h
      have ha : a ≠ '_' := h a (List.mem_cons_self a rest)
      rw [EnvEncoder.camelize.eq_def]
      split
      · simp_all
      · simp_all
      · rename_i c r heq
        injection heq with h1 h2
        subst h1
        subst h2
        rw [ih fun c hc => h c (List.mem_cons_of_mem a hc)]

/-- Unfolding of a good key: non-empty with lowercase/digit characters. -/
theorem goodKey_spec {k : Str} (h : goodKey k = true) :
    k ≠ [] ∧ ∀ c ∈ k, lowerKeyChar c = true := by
  simp only [goodKey, Bool.and_eq_true, decide_eq_true_eq] at h
  exact ⟨h.1, List.all_eq_true.mp h.2⟩

/-- Uppercasing a camelCase key character yields an ENV key character that
is not the underscore. -/
theorem upper_lowerKey {c : Char} (h : lowerKeyChar c = true) :
    envKeyChar c.toUpper = true ∧ c.toUpper ≠ '_' := by
  simp only [lowerKeyChar, Bool.or_eq_true, Bool.and_eq_true,
    decide_eq_true_eq] at h
  have hr : (65 ≤ c.toUpper.toNat ∧ c.toUpper.toNat ≤ 90) ∨
      (48 ≤ c.toUpper.toNat ∧ c.toUpper.toNat ≤ 57) := by
    rcases h with h | h
    · left
      rw [toUpper_toNat_of_lower h.1 h.2]
      omega
    · right
      rw [toUpper_fix (by omega)]
      omega
  constructor
  · simp only [envKeyChar, Bool.or_eq_true, Bool.and_eq_true, decide_eq_true_eq]
    rcases hr with h2 | h2
    · exact Or.inl (Or.inl h2)
    · exact Or.inl (Or.inr h2)
  · intro he
    have h95 := congrArg Char.toNat he
    rw [show ('_').toNat = 95 from by decide] at h95
    omega

/-- The decoder's segment transform inverts uppercasing on good keys. -/
theorem fromEnvSegment_upper {k : Str} (h : goodKey k = true) :
    EnvEncoder.fromEnvSegment (k.map Char.toUpper) = k := by
  obtain ⟨-, hall⟩ := goodKey_spec h
  rw [EnvEncoder.fromEnvSegment, List.map_map]
  have hmap : k.map (Char.toLower ∘ Char.toUpper) = k := by
    have hcong : ∀ c ∈ k, (Char.toLower ∘ Char.toUpper) c = id c := fun c hc =>
      toLower_toUpper_lowerKey (hall c hc)
    rw [List.map_congr_left hcong, List.map_id]
  rw [hmap]
  exact camelize_id fun c hc => ne_of_class (hall c hc) (by decide)

/-- On a good key and non-empty prefix, `toEnvKey` is a double-underscore
join with the uppercased segment. -/
theorem toEnvKey_upper {pre k : Str} (hpre : pre ≠ []) (h : goodKey k = true) :
    EnvEncoder.toEnvKey pre k = pre ++ '_' :: '_' :: k.map Char.toUpper := by
  obtain ⟨-, hall⟩ := goodKey_spec h
  have hnorm : (k.map fun c => if c = '-' then '_' else c) = k := by
    have hcong : ∀ c ∈ k, (fun c => if c = '-' then '_' else c) c = id c :=
      fun c hc => keyChar_no_hyphen (lowerKeyChar_keyChar (hall c hc))
    rw [List.map_congr_left hcong, List.map_id]
  simp only [EnvEncoder.toEnvKey]
  rw [hnorm, if_neg hpre]

/-- An ENV key built on a non-empty prefix extends that prefix. -/
theorem envKeyPath_prefix : ∀ (p : List Str) (pre : Str), pre ≠ [] →
    ∃ s, envKeyPath pre p = pre ++ s := by
  intro p
  induction p with
  | nil =>
      intro pre _
      exact ⟨[], by rw [envKeyPath, List.foldl_nil, List.append_nil]⟩
  | cons k p' ih =>
      intro pre hpre
      rw [show envKeyPath pre (k :: p') =
        envKeyPath (EnvEncoder.toEnvKey pre k) p' from rfl]
      have hk : EnvEncoder.toEnvKey pre k = pre ++ '_' :: '_' ::
          (k.map fun c => if c = '-' then '_' else c).map Char.toUpper := by
        simp only [EnvEncoder.toEnvKey]
        rw [if_neg hpre]
      have hne : EnvEncoder.toEnvKey pre k ≠ [] := by
        rw [hk]
        simp
      obtain ⟨s, hs⟩ := ih (EnvEncoder.toEnvKey pre k) hne
      rw [hs, hk, List.append_assoc]
      exact ⟨_, rfl⟩

/-- Extending an ENV key distributes over a double-underscore join. -/
theorem envKeyPath_split : ∀ (p : List Str) (x y : Str), y ≠ [] →
    envKeyPath (x ++ '_' :: '_' :: y) p = x ++ '_' :: '_' :: envKeyPath y p := by
  intro p
  induction p with
  | nil => intro x y _; rfl
  | cons k p' ih =>
      intro x y hy
      rw [show envKeyPath (x ++ '_' :: '_' :: y) (k :: p') =
        envKeyPath (EnvEncoder.toEnvKey (x ++ '_' :: '_' :: y) k) p' from rfl,
        show envKeyPath y (k :: p') =
          envKeyPath (EnvEncoder.toEnvKey y k) p' from rfl]
      have h1 : EnvEncoder.toEnvKey (x ++ '_' :: '_' :: y) k =
          x ++ '_' :: '_' :: EnvEncoder.toEnvKey y k := by
        simp only [EnvEncoder.toEnvKey]
        rw [if_neg hy, if_neg (by simp), List.append_assoc]
        rfl
      have h2 : EnvEncoder.toEnvKey y k ≠ [] := by
        simp only [EnvEncoder.toEnvKey]
        rw [if_neg hy]
        simp
      rw [h1, ih x (EnvEncoder.toEnvKey y k) h2]

/-- Splitting an ENV key over good segments on the double underscore
recovers the prefix and the uppercased segments. -/
theorem splitDU_envKeyPath : ∀ (p : List Str) (pre : Str), pre ≠ [] →
    '_' ∉ pre → (∀ k ∈ p, goodKey k = true) →
    splitDU (envKeyPath pre p) = pre :: p.map (List.map Char.toUpper) := by
  intro p
  induction p with
  | nil =>
      intro pre _ hu _
      rw [show envKeyPath pre [] = pre from rfl, splitDU_no_sep pre hu]
      rfl
  | cons k p' ih =>
      intro pre hpre hu hg
      have hk := hg k (List.mem_cons_self k p')
      obtain ⟨hkne, hkall⟩ := goodKey_spec hk
      have hUne : k.map Char.toUpper ≠ [] := by
        intro he
        cases k with
        | nil => exact hkne rfl
        | cons a t => simp at he
      have hUu : '_' ∉ k.map Char.toUpper := by
        intro hm
        obtain ⟨d, hd, hde⟩ := List.mem_map.mp hm
        exact (upper_lowerKey (hkall d hd)).2 hde
      rw [show envKeyPath pre (k :: p') =
          envKeyPath (EnvEncoder.toEnvKey pre k) p' from rfl,
        toEnvKey_upper hpre hk,
        envKeyPath_split p' pre (k.map Char.toUpper) hUne,
        splitDU_sep _ _ hu,
        ih (k.map Char.toUpper) hUne hUu
          fun k2 h2 => hg k2 (List.mem_cons_of_mem k h2)]
      rfl

/-- Every character of an ENV key over good segments is an ENV key
character. -/
theorem envKeyPath_chars : ∀ (p : List Str) (pre : Str), pre ≠ [] →
    (∀ c ∈ pre, envKeyChar c = true) → (∀ k ∈ p, goodKey k = true) →
    ∀ c ∈ envKeyPath pre p, envKeyChar c = true := by
  intro p
  induction p with
  | nil => intro pre _ hpc _ c hc; exact hpc c hc
  | cons k p' ih =>
      intro pre hpre hpc hg
      rw [show envKeyPath pre (k :: p') =
        envKeyPath (EnvEncoder.toEnvKey pre k) p' from rfl]
      have hk := hg k (List.mem_cons_self k p')
      obtain ⟨-, hkall⟩ := goodKey_spec hk
      refine ih _ ?_ ?_ fun k2 h2 => hg k2 (List.mem_cons_of_mem k h2)
      · rw [toEnvKey_upper hpre hk]
        simp
      · rw [toEnvKey_upper hpre hk]
        intro c hc
        rcases List.mem_append.mp hc with hm | hm
        · exact hpc c hm
        · rcases List.mem_cons.mp hm with hm | hm
          · rw [hm]; decide
          · rcases List.mem_cons.mp hm with hm | hm
            · rw [hm]; decide
            · obtain ⟨d, hd, hde⟩ := List.mem_map.mp hm
              rw [← hde]
              exact (upper_lowerKey (hkall d hd)).1

/-- The characters of a quote-escaped string: backslashes, quotes, and the
original characters. -/
theorem escDQ_chars {s : Str} {c : Char} (hc : c ∈ EnvEncoder.escDQ s) :
    c = '\\' ∨ c = '"' ∨ c ∈ s := by
  rw [EnvEncoder.escDQ] at hc
  obtain ⟨d, hd, hcd⟩ := List.mem_flatMap.mp hc
  by_cases hdq : d = '"'
  · rw [if_pos hdq] at hcd
    rcases List.mem_cons.mp hcd with h | h
    · exact Or.inl h
    · rcases List.mem_cons.mp h with h | h
      · exact Or.inr (Or.inl h)
      · cases h
  · rw [if_neg hdq] at hcd
    rcases List.mem_cons.mp hcd with h | h
    · exact Or.inr (Or.inr (h ▸ hd))
    · cases h

/-- Parsing inverts the ENV value rendering on round-trippable leaves: the
decoder restores the same value with the same constructor. -/
theorem parseEnv_toEnv {w : JVal} (h : goodLeaf w = true) :
    EnvEncoder.parseEnvValue (EnvEncoder.toEnvValue w) = some w := by
  cases w with
  | vNull => cases h
  | vArr xs => cases h
  | vObj g => cases h
  | vBool b => cases b <;> decide
  | vNum n =>
      have hn : 0 ≤ n := by
        simp only [goodLeaf, decide_eq_true_eq] at h
        exact h
      rw [show EnvEncoder.toEnvValue (.vNum n) = intStr n from rfl,
        intStr_nonneg n hn]
      have hall : ∀ c ∈ natDigitsSpec n.toNat, isDigitC c = true :=
        natDigitsSpec_all_digits _
      have hne : natDigitsSpec n.toNat ≠ [] := natDigitsSpec_ne_nil _
      simp only [EnvEncoder.parseEnvValue]
      rw [stripDQ_eq_self (by
        intro hh
        have hm := memOfHead hh
        exact absurd (hall '"' hm) (by decide))]
      rw [unescDQ_eq_self
        (not_mem_of_all (List.all_eq_true.mpr hall) (by decide))]
      rw [if_neg (fun he => absurd (hall 't' (by rw [he]; decide))
          (by decide)),
        if_neg (fun he => absurd (hall 'f' (by rw [he]; decide))
          (by decide)),
        if_pos ⟨hne, List.all_eq_true.mpr hall⟩,
        digitsToNat_natDigitsSpec]
      rw [show ((n.toNat : Int) : Int) = n from Int.toNat_of_nonneg hn]
  | vStr s =>
      simp only [goodLeaf, Bool.and_eq_true, decide_eq_true_eq,
        Bool.or_eq_true] at h
      obtain ⟨hnl, hqs⟩ := h
      rw [show EnvEncoder.toEnvValue (.vStr s) =
        EnvEncoder.escapeEnvValue s from rfl]
      by_cases hq : s.any EnvEncoder.envSpecial = true
      · obtain ⟨c0, hc0m, hc0s⟩ := List.any_eq_true.mp hq
        rw [EnvEncoder.escapeEnvValue, if_pos hq]
        simp only [EnvEncoder.parseEnvValue]
        rw [stripDQ_quoted (EnvEncoder.escDQ s), unescDQ_escDQ s]
        have hdd : digitDotDigit s = false := by
          cases hdd : digitDotDigit s with
          | false => rfl
          | true =>
              exfalso
              rcases digitDotDigit_chars hdd c0 hc0m with hd | hd
              · exact absurd hc0s (by rw [digit_not_envSpecial hd]; simp)
              · subst hd
                exact absurd hc0s (by decide)
        rw [if_neg (fun he : s = ("true".data : Str) => by
            subst he
            exact absurd hc0s (by
              rw [(by decide : ∀ c ∈ ("true".data : Str),
                EnvEncoder.envSpecial c = false) c0 hc0m]
              simp)),
          if_neg (fun he : s = ("false".data : Str) => by
            subst he
            exact absurd hc0s (by
              rw [(by decide : ∀ c ∈ ("false".data : Str),
                EnvEncoder.envSpecial c = false) c0 hc0m]
              simp)),
          if_neg (fun hand => absurd hc0s (by
            rw [digit_not_envSpecial
              (List.all_eq_true.mp hand.2 c0 hc0m)]
            simp)),
          if_neg (by rw [hdd]; simp)]
      · have hqf : s.any EnvEncoder.envSpecial = false :=
          Bool.eq_false_iff.mpr hq
        have hsb : stableBare s = true := by
          rcases hqs with h2 | h2
          · exact absurd h2 hq
          · exact h2
        simp only [stableBare, Bool.and_eq_true, Bool.not_eq_true'] at hsb
        obtain ⟨⟨⟨htr, hfa⟩, hdig⟩, hdd⟩ := hsb
        have hnospec : ∀ c ∈ s, EnvEncoder.envSpecial c = false :=
          fun c hc => Bool.eq_false_iff.mpr (List.any_eq_false.mp hqf c hc)
        rw [EnvEncoder.escapeEnvValue, if_neg hq]
        simp only [EnvEncoder.parseEnvValue]
        rw [stripDQ_eq_self (by
          intro hh
          exact absurd (hnospec '"' (memOfHead hh)) (by decide))]
        rw [unescDQ_eq_self
          (fun hm => absurd (hnospec '\\' hm) (by decide))]
        rw [if_neg (beq_eq_false_iff_ne.mp htr),
          if_neg (beq_eq_false_iff_ne.mp hfa),
          if_neg (fun hand => by
            rcases Bool.and_eq_false_iff.mp hdig with h2 | h2
            · rw [decide_eq_false_iff_not] at h2
              exact h2 hand.1
            · rw [hand.2] at h2
              cases h2),
          if_neg (by rw [hdd]; simp)]

/-- Trimming fixes the ENV rendering of a round-trippable leaf. -/
theorem jsTrim_toEnvValue {w : JVal} (h : goodLeaf w = true) :
    jsTrim (EnvEncoder.toEnvValue w) = EnvEncoder.toEnvValue w := by
  cases w with
  | vNull => cases h
  | vArr xs => cases h
  | vObj g => cases h
  | vBool b => cases b <;> decide
  | vNum n =>
      have hn : 0 ≤ n := by
        simp only [goodLeaf, decide_eq_true_eq] at h
        exact h
      rw [show EnvEncoder.toEnvValue (.vNum n) = intStr n from rfl,
        intStr_nonneg n hn]
      exact jsTrim_eq_self
        (fun hd hh => digit_not_ws (natDigitsSpec_all_digits _ hd (memOfHead hh)))
        (fun lst hh => digit_not_ws (natDigitsSpec_all_digits _ lst (memOfLast hh)))
  | vStr s =>
      simp only [goodLeaf, Bool.and_eq_true, decide_eq_true_eq,
        Bool.or_eq_true] at h
      obtain ⟨hnl, hqs⟩ := h
      rw [show EnvEncoder.toEnvValue (.vStr s) =
        EnvEncoder.escapeEnvValue s from rfl]
      by_cases hq : s.any EnvEncoder.envSpecial = true
      · rw [EnvEncoder.escapeEnvValue, if_pos hq]
        refine jsTrim_eq_self ?_ ?_
        · intro hd hh
          injection hh with hh
          subst hh
          decide
        · intro lst hh
          rw [show ('"' :: EnvEncoder.escDQ s ++ ['"'] : Str) =
            ('"' :: EnvEncoder.escDQ s) ++ ['"'] from rfl,
            List.getLast?_concat] at hh
          injection hh with hh
          subst hh
          decide
      · have hqf : s.any EnvEncoder.envSpecial = false :=
          Bool.eq_false_iff.mpr hq
        have hnospec : ∀ c ∈ s, EnvEncoder.envSpecial c = false :=
          fun c hc => Bool.eq_false_iff.mpr (List.any_eq_false.mp hqf c hc)
        have hws : ∀ c ∈ s, jsWhitespace c = false := by
          intro c hc
          have h2 := hnospec c hc
          simp only [EnvEncoder.envSpecial, Bool.or_eq_false_iff] at h2
          exact h2.1.1.1.1.1
        rw [EnvEncoder.escapeEnvValue, if_neg hq]
        exact jsTrim_eq_self
          (fun hd hh => hws hd (memOfHead hh))
          (fun lst hh => hws lst (memOfLast hh))

/-- The ENV rendering of a round-trippable leaf contains no newline. -/
theorem goodLeaf_no_nl {w : JVal} (h : goodLeaf w = true) :
    '\n' ∉ EnvEncoder.toEnvValue w := by
  cases w with
  | vNull => cases h
  | vArr xs => cases h
  | vObj g => cases h
  | vBool b => cases b <;> decide
  | vNum n => exact intStr_no_nl n
  | vStr s =>
      simp only [goodLeaf, Bool.and_eq_true, decide_eq_true_eq,
        Bool.or_eq_true] at h
      obtain ⟨hnl, hqs⟩ := h
      rw [show EnvEncoder.toEnvValue (.vStr s) =
        EnvEncoder.escapeEnvValue s from rfl]
      rw [EnvEncoder.escapeEnvValue]
      by_cases hq : s.any EnvEncoder.envSpecial = true
      · rw [if_pos hq]
        intro hm
        rcases List.mem_cons.mp hm with hm | hm
        · exact absurd hm.symm (by decide)
        · rcases List.mem_append.mp hm with hm | hm
          · rcases escDQ_chars hm with h2 | h2 | h2
            · exact absurd h2 (by decide)
            · exact absurd h2 (by decide)
            · exact hnl h2
          · rcases List.mem_cons.mp hm with hm | hm
            · exact absurd hm.symm (by decide)
            · cases hm
      · rw [if_neg hq]
        exact hnl

/-! ## ENV round-trip: object-assembly lemmas -/

/-- Reading back the field just assigned. -/
theorem getField_setField_self (fs : JFields) (k : Str) (v : JVal) :
    (fs.setField k v).getField k = some v := by
  induction fs using jfields_induction with
  | hnil => rw [JFields.setField, JFields.getField, if_pos rfl]
  | hcons k2 w rest ih =>
      rw [JFields.setField]
      by_cases hk : k2 = k
      · rw [if_pos hk, JFields.getField, if_pos hk]
      · rw [if_neg hk, JFields.getField, if_neg hk]
        exact ih

/-- Assignment does not disturb other fields. -/
theorem getField_setField_ne (fs : JFields) {k k' : Str} (v : JVal)
    (h : k ≠ k') : (fs.setField k v).getField k' = fs.getField k' := by
  induction fs using jfields_induction with
  | hnil => simp [JFields.setField, JFields.getField, h]
  | hcons k2 w rest ih =>
      rw [JFields.setField]
      by_cases hk : k2 = k
      · rw [if_pos hk]
        subst hk
        rw [JFields.getField, if_neg h, JFields.getField, if_neg h]
      · rw [if_neg hk, JFields.getField, JFields.getField]
        by_cases hk2 : k2 = k'
        · rw [if_pos hk2, if_pos hk2]
        · rw [if_neg hk2, if_neg hk2]
          exact ih

/-- Overwriting an assignment collapses to the last write. -/
theorem setField_setField_self (fs : JFields) (k : Str) (v w : JVal) :
    (fs.setField k v).setField k w = fs.setField k w := by
  induction fs using jfields_induction with
  | hnil => simp [JFields.setField]
  | hcons k2 u rest ih =>
      by_cases hk : k2 = k
      · rw [JFields.setField, if_pos hk, JFields.setField, if_pos hk,
          JFields.setField, if_pos hk]
      · rw [JFields.setField, if_neg hk, JFields.setField, if_neg hk,
          JFields.setField, if_neg hk, ih]

/-- `setNestedValue` on a path of length at least two descends through the
existing or fresh sub-object. -/
theorem setNested_cons (fs : JFields) (k1 a : Str) (t : List Str) (v : JVal) :
    EnvEncoder.setNested fs (k1 :: a :: t) v =
      fs.setField k1 (.vObj (EnvEncoder.setNested (subAt fs k1) (a :: t) v)) := by
  cases hget : fs.getField k1 with
  | none => simp only [EnvEncoder.setNested, subAt, hget]
  | some v2 => cases v2 <;> simp only [EnvEncoder.setNested, subAt, hget]

/-- The ENV walk flattens a leaf entry to its singleton path first. -/
theorem flattenEnv_cons_leaf {k : Str} {v : JVal} {rest : JFields}
    (h1 : v ≠ .vNull) (h2 : ∀ g, v ≠ .vObj g) :
    flattenEnv (.cons k v rest) = ([k], v) :: flattenEnv rest := by
  cases v with
  | vNull => exact absurd rfl h1
  | vObj g => exact absurd rfl (h2 g)
  | vBool b => rfl
  | vNum n => rfl
  | vStr s => rfl
  | vArr xs => rfl

/-- Every flattened path starts with a key of the object. -/
theorem flattenEnv_head : ∀ (fs : JFields), ∀ pw ∈ flattenEnv fs,
    ∃ k1 t, pw.1 = k1 :: t ∧ keyMem k1 fs = true := by
  intro fs
  induction fs using jfields_induction with
  | hnil => intro pw h; simp [flattenEnv] at h
  | hcons k v rest ih =>
      intro pw h
      cases v with
      | vNull =>
          rw [show flattenEnv (.cons k .vNull rest) = flattenEnv rest
            from rfl] at h
          obtain ⟨k1, t1, hp, hm⟩ := ih pw h
          exact ⟨k1, t1, hp, by rw [keyMem, hm]; simp⟩
      | vObj g =>
          rw [show flattenEnv (.cons k (.vObj g) rest) =
            ((flattenEnv g).map fun pw => (k :: pw.1, pw.2)) ++ flattenEnv rest
            from rfl] at h
          rcases List.mem_append.mp h with hm | hm
          · obtain ⟨pw2, hpw2, hpe⟩ := List.mem_map.mp hm
            exact ⟨k, pw2.1, by rw [← hpe], by rw [keyMem]; simp⟩
          · obtain ⟨k1, t1, hp, hm2⟩ := ih pw hm
            exact ⟨k1, t1, hp, by rw [keyMem, hm2]; simp⟩
      | vBool b =>
          rw [flattenEnv_cons_leaf (by intro he; cases he)
            (fun g he => by cases he)] at h
          rcases List.mem_cons.mp h with hm | hm
          · exact ⟨k, [], by rw [hm], by rw [keyMem]; simp⟩
          · obtain ⟨k1, t1, hp, hm2⟩ := ih pw hm
            exact ⟨k1, t1, hp, by rw [keyMem, hm2]; simp⟩
      | vNum n =>
          rw [flattenEnv_cons_leaf (by intro he; cases he)
            (fun g he => by cases he)] at h
          rcases List.mem_cons.mp h with hm | hm
          · exact ⟨k, [], by rw [hm], by rw [keyMem]; simp⟩
          · obtain ⟨k1, t1, hp, hm2⟩ := ih pw hm
            exact ⟨k1, t1, hp, by rw [keyMem, hm2]; simp⟩
      | vStr s =>
          rw [flattenEnv_cons_leaf (by intro he; cases he)
            (fun g he => by cases he)] at h
          rcases List.mem_cons.mp h with hm | hm
          · exact ⟨k, [], by rw [hm], by rw [keyMem]; simp⟩
          · obtain ⟨k1, t1, hp, hm2⟩ := ih pw hm
            exact ⟨k1, t1, hp, by rw [keyMem, hm2]; simp⟩
      | vArr xs =>
          rw [flattenEnv_cons_leaf (by intro he; cases he)
            (fun g he => by cases he)] at h
          rcases List.mem_cons.mp h with hm | hm
          · exact ⟨k, [], by rw [hm], by rw [keyMem]; simp⟩
          · obtain ⟨k1, t1, hp, hm2⟩ := ih pw hm
            exact ⟨k1, t1, hp, by rw [keyMem, hm2]; simp⟩

/-- Unfolding of a good document entry. -/
theorem goodDoc_cons {k : Str} {v : JVal} {rest : JFields}
    (h : goodDoc (.cons k v rest) = true) :
    goodKey k = true ∧ keyMem k rest = false ∧ goodVal v = true ∧
      goodDoc rest = true := by
  rw [goodDoc] at h
  simp only [Bool.and_eq_true, Bool.not_eq_true'] at h
  exact ⟨h.1.1.1, h.1.1.2, h.1.2, h.2⟩

/-- Every flattened entry of a good document has a non-empty path of good
keys and a round-trippable leaf value. -/
theorem flattenEnv_good : ∀ (fs : JFields), goodDoc fs = true →
    ∀ pw ∈ flattenEnv fs, pw.1 ≠ [] ∧ (∀ k2 ∈ pw.1, goodKey k2 = true) ∧
      goodLeaf pw.2 = true
  | .nil => by intro _ pw h; simp [flattenEnv] at h
  | .cons k v rest => by
      intro hg pw hmem
      obtain ⟨hk, hkm, hv, hrest⟩ := goodDoc_cons hg
      cases v with
      | vNull =>
          exact flattenEnv_good rest hrest pw hmem
      | vObj g =>
          rw [show flattenEnv (.cons k (.vObj g) rest) =
            ((flattenEnv g).map fun pw => (k :: pw.1, pw.2)) ++ flattenEnv rest
            from rfl] at hmem
          rcases List.mem_append.mp hmem with hm | hm
          · obtain ⟨pw2, hpw2, hpe⟩ := List.mem_map.mp hm
            obtain ⟨-, hkeys, hleaf⟩ := flattenEnv_good g hv pw2 hpw2
            refine ⟨?_, ?_, ?_⟩
            · rw [← hpe]; simp
            · rw [← hpe]
              intro k2 h2
              rcases List.mem_cons.mp h2 with h2 | h2
              · rw [h2]; exact hk
              · exact hkeys k2 h2
            · rw [← hpe]; exact hleaf
          · exact flattenEnv_good rest hrest pw hm
      | vBool b =>
          rw [flattenEnv_cons_leaf (by intro he; cases he)
            (fun g he => by cases he)] at hmem
          rcases List.mem_cons.mp hmem with hm | hm
          · rw [hm]
            refine ⟨by simp, ?_, hv⟩
            intro k2 h2
            rcases List.mem_cons.mp h2 with h2 | h2
            · rw [h2]; exact hk
            · cases h2
          · exact flattenEnv_good rest hrest pw hm
      | vNum n =>
          rw [flattenEnv_cons_leaf (by intro he; cases he)
            (fun g he => by cases he)] at hmem
          rcases List.mem_cons.mp hmem with hm | hm
          · rw [hm]
            refine ⟨by simp, ?_, hv⟩
            intro k2 h2
            rcases List.mem_cons.mp h2 with h2 | h2
            · rw [h2]; exact hk
            · cases h2
          · exact flattenEnv_good rest hrest pw hm
      | vStr s =>
          rw [flattenEnv_cons_leaf (by intro he; cases he)
            (fun g he => by cases he)] at hmem
          rcases List.mem_cons.mp hmem with hm | hm
          · rw [hm]
            refine ⟨by simp, ?_, hv⟩
            intro k2 h2
            rcases List.mem_cons.mp h2 with h2 | h2
            · rw [h2]; exact hk
            · cases h2
          · exact flattenEnv_good rest hrest pw hm
      | vArr xs =>
          rw [flattenEnv_cons_leaf (by intro he; cases he)
            (fun g he => by cases he)] at hmem
          rcases List.mem_cons.mp hmem with hm | hm
          · rw [hm]
            refine ⟨by simp, ?_, hv⟩
            intro k2 h2
            rcases List.mem_cons.mp h2 with h2 | h2
            · rw [h2]; exact hk
            · cases h2
          · exact flattenEnv_good rest hrest pw hm

/-- Writes whose paths start elsewhere do not disturb a field. -/
theorem foldl_writeEnv_getField {k : Str} : ∀ (lst : List (List Str × JVal))
    (acc : JFields), (∀ pw ∈ lst, ∃ k1 t, pw.1 = k1 :: t ∧ k1 ≠ k) →
    (List.foldl writeEnv acc lst).getField k = acc.getField k := by
  intro lst
  induction lst with
  | nil => intro acc _; rfl
  | cons pw lst' ih =>
      intro acc h
      rw [List.foldl_cons]
      obtain ⟨k1, t, hp, hne⟩ := h pw (List.mem_cons_self _ _)
      have hw : (writeEnv acc pw).getField k = acc.getField k := by
        rw [writeEnv, hp]
        cases t with
        | nil =>
            show (acc.setField k1 pw.2).getField k = acc.getField k
            exact getField_setField_ne _ _ hne
        | cons a t' =>
            rw [setNested_cons]
            exact getField_setField_ne _ _ hne
      rw [ih _ fun pw2 h2 => h pw2 (List.mem_cons_of_mem _ h2), hw]

/-- Prefixing every written path with a common key turns the fold into a
single assignment of the folded sub-object. -/
theorem foldl_writeEnv_nest {k : Str} : ∀ (lst : List (List Str × JVal))
    (acc : JFields), (∀ pw ∈ lst, pw.1 ≠ []) → lst ≠ [] →
    List.foldl writeEnv acc (lst.map fun pw => (k :: pw.1, pw.2)) =
      acc.setField k (.vObj (List.foldl writeEnv (subAt acc k) lst)) := by
  intro lst
  induction lst with
  | nil => intro acc _ h; exact absurd rfl h
  | cons pw lst' ih =>
      intro acc hne _
      rw [List.map_cons, List.foldl_cons, List.foldl_cons]
      obtain ⟨p1, pt, hpe⟩ : ∃ p1 pt, pw.1 = p1 :: pt := by
        cases hp2 : pw.1 with
        | nil => exact absurd hp2 (hne pw (List.mem_cons_self _ _))
        | cons p1 pt => exact ⟨p1, pt, rfl⟩
      have hw : writeEnv acc (k :: pw.1, pw.2) =
          acc.setField k (.vObj (writeEnv (subAt acc k) pw)) := by
        rw [writeEnv, writeEnv, hpe]
        exact setNested_cons acc k p1 pt pw.2
      rw [hw]
      by_cases hl : lst' = []
      · subst hl
        rfl
      · rw [ih _ (fun pw3 h3 => hne pw3 (List.mem_cons_of_mem _ h3)) hl,
          setField_setField_self]
        have hsub : subAt
            (acc.setField k (.vObj (writeEnv (subAt acc k) pw))) k =
            writeEnv (subAt acc k) pw := by
          simp only [subAt, getField_setField_self]
        rw [hsub]

/-- The ENV object walk renders exactly the flattened leaves, each as a
`KEY=value` line over the accumulated prefix. -/
theorem encodeObject_render : ∀ (fs : JFields) (pre : Str),
    EnvEncoder.encodeObject fs pre = (flattenEnv fs).map
      (fun pw => envKeyPath pre pw.1 ++ '=' :: EnvEncoder.toEnvValue pw.2)
  | .nil, pre => rfl
  | .cons k v rest, pre => by
      cases v with
      | vNull =>
          rw [show EnvEncoder.encodeObject (.cons k .vNull rest) pre =
              EnvEncoder.encodeObject rest pre from rfl,
            show flattenEnv (.cons k .vNull rest) = flattenEnv rest from rfl,
            encodeObject_render rest pre]
      | vObj g =>
          rw [show EnvEncoder.encodeObject (.cons k (.vObj g) rest) pre =
              EnvEncoder.encodeObject g (EnvEncoder.toEnvKey pre k) ++
                EnvEncoder.encodeObject rest pre from rfl,
            show flattenEnv (.cons k (.vObj g) rest) =
              ((flattenEnv g).map fun pw => (k :: pw.1, pw.2)) ++
                flattenEnv rest from rfl,
            encodeObject_render g (EnvEncoder.toEnvKey pre k),
            encodeObject_render rest pre, List.map_append, List.map_map]
          rfl
      | vBool b =>
          rw [show EnvEncoder.encodeObject (.cons k (.vBool b) rest) pre =
              (EnvEncoder.toEnvKey pre k ++ '=' ::
                EnvEncoder.toEnvValue (.vBool b)) ::
                EnvEncoder.encodeObject rest pre from rfl,
            flattenEnv_cons_leaf (by intro he; cases he)
              (fun g he => by cases he),
            List.map_cons, encodeObject_render rest pre]
          rfl
      | vNum n =>
          rw [show EnvEncoder.encodeObject (.cons k (.vNum n) rest) pre =
              (EnvEncoder.toEnvKey pre k ++ '=' ::
                EnvEncoder.toEnvValue (.vNum n)) ::
                EnvEncoder.encodeObject rest pre from rfl,
            flattenEnv_cons_leaf (by intro he; cases he)
              (fun g he => by cases he),
            List.map_cons, encodeObject_render rest pre]
          rfl
      | vStr s =>
          rw [show EnvEncoder.encodeObject (.cons k (.vStr s) rest) pre =
              (EnvEncoder.toEnvKey pre k ++ '=' ::
                EnvEncoder.toEnvValue (.vStr s)) ::
                EnvEncoder.encodeObject rest pre from rfl,
            flattenEnv_cons_leaf (by intro he; cases he)
              (fun g he => by cases he),
            List.map_cons, encodeObject_render rest pre]
          rfl
      | vArr xs =>
          rw [show EnvEncoder.encodeObject (.cons k (.vArr xs) rest) pre =
              (EnvEncoder.toEnvKey pre k ++ '=' ::
                EnvEncoder.toEnvValue (.vArr xs)) ::
                EnvEncoder.encodeObject rest pre from rfl,
            flattenEnv_cons_leaf (by intro he; cases he)
              (fun g he => by cases he),
            List.map_cons, encodeObject_render rest pre]
          rfl

/-- Folding the nested writes of a good document's flattened leaves over an
accumulator that is fresh for its keys makes every leaf readable at its
path. -/
theorem foldl_flatten_getPath : ∀ (fs : JFields) (acc : JFields),
    goodDoc fs = true →
    (∀ k2, keyMem k2 fs = true → acc.getField k2 = none) →
    ∀ pw ∈ flattenEnv fs,
      (List.foldl writeEnv acc (flattenEnv fs)).getPath pw.1 = some pw.2
  | .nil => by intro acc _ _ pw h; simp [flattenEnv] at h
  | .cons k v rest => by
      intro acc hg hfresh pw hmem
      obtain ⟨hk, hkm, hv, hrest⟩ := goodDoc_cons hg
      have hfresh2 : ∀ k2, ((k2 == k) || keyMem k2 rest) = true →
          acc.getField k2 = none := fun k2 h2 =>
        hfresh k2 (by rw [keyMem]; exact h2)
      have hrestne : ∀ pw2 ∈ flattenEnv rest,
          ∃ k1 t, pw2.1 = k1 :: t ∧ k1 ≠ k := by
        intro pw2 h2
        obtain ⟨k1, t, hp, hkm1⟩ := flattenEnv_head rest pw2 h2
        refine ⟨k1, t, hp, fun he2 => ?_⟩
        subst he2
        rw [hkm] at hkm1
        cases hkm1
      have hleafstep : ∀ (w : JVal), w ≠ .vNull → (∀ g, w ≠ .vObj g) →
          pw ∈ flattenEnv (.cons k w rest) →
          (List.foldl writeEnv acc
            (flattenEnv (.cons k w rest))).getPath pw.1 = some pw.2 := by
        intro w hwn hwo hmemw
        rw [flattenEnv_cons_leaf hwn hwo] at hmemw ⊢
        rw [List.foldl_cons]
        have hwr : writeEnv acc ([k], w) = acc.setField k w := rfl
        rcases List.mem_cons.mp hmemw with he | hm
        · rw [he]
          rw [show (List.foldl writeEnv (writeEnv acc ([k], w))
              (flattenEnv rest)).getPath (([k], w)).1 =
            (List.foldl writeEnv (writeEnv acc ([k], w))
              (flattenEnv rest)).getField k from rfl]
          rw [foldl_writeEnv_getField (flattenEnv rest) _ hrestne, hwr]
          exact getField_setField_self acc k w
        · refine foldl_flatten_getPath rest (writeEnv acc ([k], w)) hrest
            ?_ pw hm
          intro k2 h2
          rw [hwr]
          have hne2 : k ≠ k2 := fun he2 => by
            rw [← he2] at h2
            rw [hkm] at h2
            cases h2
          rw [getField_setField_ne acc w hne2]
          exact hfresh2 k2 (by rw [h2]; simp)
      cases v with
      | vNull =>
          rw [show flattenEnv (.cons k .vNull rest) = flattenEnv rest
            from rfl] at hmem ⊢
          refine foldl_flatten_getPath rest acc hrest ?_ pw hmem
          intro k2 h2
          exact hfresh2 k2 (by rw [h2]; simp)
      | vObj g =>
          have hgv : goodDoc g = true := hv
          rw [show flattenEnv (.cons k (.vObj g) rest) =
            ((flattenEnv g).map fun pw => (k :: pw.1, pw.2)) ++
              flattenEnv rest from rfl] at hmem ⊢
          rw [List.foldl_append]
          by_cases hfe : flattenEnv g = []
          · rw [hfe] at hmem ⊢
            rw [List.map_nil, List.foldl_nil]
            rw [List.map_nil, List.nil_append] at hmem
            refine foldl_flatten_getPath rest acc hrest ?_ pw hmem
            intro k2 h2
            exact hfresh2 k2 (by rw [h2]; simp)
          · have hpne : ∀ pw2 ∈ flattenEnv g, pw2.1 ≠ [] := by
              intro pw2 h2
              obtain ⟨k1, t, hp, -⟩ := flattenEnv_head g pw2 h2
              rw [hp]
              simp
            rw [foldl_writeEnv_nest (flattenEnv g) acc hpne hfe]
            have hacck : acc.getField k = none := hfresh2 k (by simp)
            have hsub : subAt acc k = .nil := by
              simp only [subAt, hacck]
            rw [hsub]
            rcases List.mem_append.mp hmem with hm | hm
            · obtain ⟨pw2, hpw2, hpe⟩ := List.mem_map.mp hm
              rw [← hpe]
              obtain ⟨k1, t, hp2, -⟩ := flattenEnv_head g pw2 hpw2
              have hinner : (List.foldl writeEnv .nil
                  (flattenEnv g)).getPath pw2.1 = some pw2.2 :=
                foldl_flatten_getPath g .nil hgv (fun k2 _ => rfl) pw2 hpw2
              have hfinal : (List.foldl writeEnv
                  (acc.setField k (.vObj (List.foldl writeEnv .nil
                    (flattenEnv g)))) (flattenEnv rest)).getField k =
                  some (.vObj (List.foldl writeEnv .nil (flattenEnv g))) := by
                rw [foldl_writeEnv_getField (flattenEnv rest) _ hrestne]
                exact getField_setField_self _ _ _
              rw [show ((k :: pw2.1, pw2.2) : List Str × JVal).1 =
                k :: pw2.1 from rfl, hp2]
              rw [show (List.foldl writeEnv
                  (acc.setField k (.vObj (List.foldl writeEnv .nil
                    (flattenEnv g)))) (flattenEnv rest)).getPath
                    (k :: k1 :: t) =
                (match (List.foldl writeEnv
                  (acc.setField k (.vObj (List.foldl writeEnv .nil
                    (flattenEnv g)))) (flattenEnv rest)).getField k with
                 | some (.vObj g2) => g2.getPath (k1 :: t)
                 | _ => none) from rfl]
              rw [hfinal]
              rw [← hp2]
              exact hinner
            · refine foldl_flatten_getPath rest
                (acc.setField k (.vObj (List.foldl writeEnv .nil
                  (flattenEnv g)))) hrest ?_ pw hm
              intro k2 h2
              have hne2 : k ≠ k2 := fun he2 => by
                rw [← he2] at h2
                rw [hkm] at h2
                cases h2
              rw [getField_setField_ne acc _ hne2]
              exact hfresh2 k2 (by rw [h2]; simp)
      | vBool b =>
          exact hleafstep (.vBool b) (by intro he; cases he)
            (fun g he => by cases he) hmem
      | vNum n =>
          exact hleafstep (.vNum n) (by intro he; cases he)
            (fun g he => by cases he) hmem
      | vStr s =>
          exact hleafstep (.vStr s) (by intro he; cases he)
            (fun g he => by cases he) hmem
      | vArr xs =>
          exact hleafstep (.vArr xs) (by intro he; cases he)
            (fun g he => by cases he) hmem

/-- Decoding one rendered `KEY=value` line over a good path updates exactly
the branch selected by the root segment with the parsed leaf. -/
theorem decodeLine_render (root : Str) (hrne : root ≠ []) (hru : '_' ∉ root)
    (hrc : ∀ c ∈ root, envKeyChar c = true)
    (p : List Str) (hp : p ≠ []) (hpg : ∀ k2 ∈ p, goodKey k2 = true)
    (w : JVal) (hw : goodLeaf w = true) (acc : EnvEncoder.Decoded) :
    EnvEncoder.decodeLine acc
      (envKeyPath root p ++ '=' :: EnvEncoder.toEnvValue w) =
      if root = "USERDEFINEDVARIABLE".data then
        { udv := EnvEncoder.setNested acc.udv p w, test := acc.test }
      else if root = "TEST".data then
        { udv := acc.udv, test := EnvEncoder.setNested acc.test p w }
      else acc := by
  obtain ⟨s, hKpre⟩ := envKeyPath_prefix p root hrne
  obtain ⟨r0, rt, hroot⟩ : ∃ r0 rt, root = r0 :: rt := by
    cases root with
    | nil => exact absurd rfl hrne
    | cons r0 rt => exact ⟨r0, rt, rfl⟩
  have hr0 : envKeyChar r0 = true := hrc r0 (by rw [hroot]; simp)
  have hlineeq : envKeyPath root p ++ '=' :: EnvEncoder.toEnvValue w =
      r0 :: ((rt ++ s) ++ '=' :: EnvEncoder.toEnvValue w) := by
    rw [hKpre, hroot]
    rfl
  have hhead : (jsTrim (envKeyPath root p ++ '=' ::
      EnvEncoder.toEnvValue w)).head? = some r0 := by
    rw [hlineeq]
    exact trim_head _ (envKeyChar_not_ws hr0)
  have hgd : ¬(jsTrim (envKeyPath root p ++ '=' ::
      EnvEncoder.toEnvValue w) = [] ∨
      (jsTrim (envKeyPath root p ++ '=' ::
        EnvEncoder.toEnvValue w)).head? = some '#') := by
    intro hor
    rcases hor with he | hh
    · rw [he] at hhead
      cases hhead
    · rw [hhead] at hh
      injection hh with hh
      exact ne_of_class hr0 (by decide) hh
  have hKne : envKeyPath root p ≠ [] := by
    rw [hKpre, hroot]
    simp
  have hKeq : '=' ∉ envKeyPath root p := fun hm =>
    absurd (envKeyPath_chars p root hrne hrc hpg '=' hm) (by decide)
  have hkeytrim : jsTrim (envKeyPath root p) = envKeyPath root p :=
    jsTrim_eq_self
      (fun hd hh => envKeyChar_not_ws
        (envKeyPath_chars p root hrne hrc hpg hd (memOfHead hh)))
      (fun lst hh => envKeyChar_not_ws
        (envKeyPath_chars p root hrne hrc hpg lst (memOfLast hh)))
  obtain ⟨k1, p', hpe⟩ : ∃ k1 p', p = k1 :: p' := by
    cases p with
    | nil => exact absurd rfl hp
    | cons k1 p' => exact ⟨k1, p', rfl⟩
  have hsplit : splitDU (envKeyPath root p) =
      root :: p.map (List.map Char.toUpper) :=
    splitDU_envKeyPath p root hrne hru hpg
  have hpath : List.map EnvEncoder.fromEnvSegment
      (p.map (List.map Char.toUpper)) = p := by
    rw [List.map_map]
    refine Eq.trans (List.map_congr_left ?_) (List.map_id p)
    intro k2 h2
    exact fromEnvSegment_upper (hpg k2 h2)
  subst hpe
  simp only [List.map_cons] at hsplit hpath
  rw [EnvEncoder.decodeLine]
  rw [if_neg hgd, splitFirstEq_append hKne hKeq]
  simp only [hkeytrim, jsTrim_toEnvValue hw, hsplit, parseEnv_toEnv hw,
    List.map_cons, hpath]

/-- Blank and comment lines leave the decoder state unchanged. -/
theorem decodeLine_skip (l : Str)
    (h : jsTrim l = [] ∨ (jsTrim l).head? = some '#') :
    ∀ acc, EnvEncoder.decodeLine acc l = acc := by
  intro acc
  rw [EnvEncoder.decodeLine, if_pos h]

/-- Splitting leaves a list of newline-free lines unchanged. -/
theorem flatMap_splitNl_self : ∀ {L : List Str}, (∀ l ∈ L, '\n' ∉ l) →
    L.flatMap splitNl = L := by
  intro L
  induction L with
  | nil => intro _; rfl
  | cons l ls ih =>
      intro h
      rw [List.flatMap_cons, splitNl_noNl l (h l (List.mem_cons_self _ _)),
        ih fun l2 h2 => h l2 (List.mem_cons_of_mem _ h2)]
      rfl

/-- A rendered `KEY=value` line over good segments and a round-trippable
leaf contains no newline. -/
theorem render_no_nl {root : Str} (hrne : root ≠ [])
    (hrc : ∀ c ∈ root, envKeyChar c = true)
    {p : List Str} (hpg : ∀ k2 ∈ p, goodKey k2 = true) {w : JVal}
    (hw : goodLeaf w = true) :
    '\n' ∉ envKeyPath root p ++ '=' :: EnvEncoder.toEnvValue w := by
  intro hm
  rcases List.mem_append.mp hm with hm | hm
  · exact absurd (envKeyPath_chars p root hrne hrc hpg '\n' hm) (by decide)
  · rcases List.mem_cons.mp hm with hm | hm
    · exact absurd hm.symm (by decide)
    · exact goodLeaf_no_nl hw hm

/-- Folding the decoder over the rendered `TEST` section writes every leaf
into the `test` branch. -/
theorem foldl_decode_test : ∀ (lst : List (List Str × JVal))
    (acc : EnvEncoder.Decoded),
    (∀ pw ∈ lst, pw.1 ≠ [] ∧ (∀ k2 ∈ pw.1, goodKey k2 = true) ∧
      goodLeaf pw.2 = true) →
    List.foldl EnvEncoder.decodeLine acc (lst.map fun pw =>
      envKeyPath "TEST".data pw.1 ++ '=' :: EnvEncoder.toEnvValue pw.2) =
    { udv := acc.udv, test := List.foldl writeEnv acc.test lst } := by
  intro lst
  induction lst with
  | nil => intro acc _; rfl
  | cons pw lst' ih =>
      intro acc h
      rw [List.map_cons, List.foldl_cons, List.foldl_cons]
      obtain ⟨hp, hkeys, hleaf⟩ := h pw (List.mem_cons_self _ _)
      rw [decodeLine_render "TEST".data (by decide) (by decide) (by decide)
        pw.1 hp hkeys pw.2 hleaf acc]
      rw [if_neg (by decide), if_pos rfl]
      rw [ih _ fun pw2 h2 => h pw2 (List.mem_cons_of_mem _ h2)]
      rfl

/-- Folding the decoder over the rendered `USERDEFINEDVARIABLE` section
writes every leaf into the `udv` branch. -/
theorem foldl_decode_udv : ∀ (lst : List (List Str × JVal))
    (acc : EnvEncoder.Decoded),
    (∀ pw ∈ lst, pw.1 ≠ [] ∧ (∀ k2 ∈ pw.1, goodKey k2 = true) ∧
      goodLeaf pw.2 = true) →
    List.foldl EnvEncoder.decodeLine acc (lst.map fun pw =>
      envKeyPath "USERDEFINEDVARIABLE".data pw.1 ++ '=' ::
        EnvEncoder.toEnvValue pw.2) =
    { udv := List.foldl writeEnv acc.udv lst, test := acc.test } := by
  intro lst
  induction lst with
  | nil => intro acc _; rfl
  | cons pw lst' ih =>
      intro acc h
      rw [List.map_cons, List.foldl_cons, List.foldl_cons]
      obtain ⟨hp, hkeys, hleaf⟩ := h pw (List.mem_cons_self _ _)
      rw [decodeLine_render "USERDEFINEDVARIABLE".data (by decide) (by decide)
        (by decide) pw.1 hp hkeys pw.2 hleaf acc]
      rw [if_pos rfl]
      rw [ih _ fun pw2 h2 => h pw2 (List.mem_cons_of_mem _ h2)]
      rfl

/-- Decoding an encoded canonical document folds exactly the nested writes
of both branches' flattened leaves, in document order, from empty objects. -/
theorem decode_encode (t : Str) (c : Canon) (ht : '\n' ∉ t)
    (hu : goodDoc c.udv = true) (hT : goodDoc c.test = true) :
    EnvEncoder.decode (EnvEncoder.encode t c) =
      { udv := List.foldl writeEnv .nil (flattenEnv c.udv),
        test := List.foldl writeEnv .nil (flattenEnv c.test) } := by
  obtain ⟨udv, test⟩ := c
  rw [EnvEncoder.encode, EnvEncoder.decode]
  cases udv with
  | nil =>
      rw [show ({ udv := JFields.nil, test := test } : Canon).udv =
          JFields.nil from rfl,
        show ({ udv := JFields.nil, test := test } : Canon).test =
          test from rfl,
        show (if JFields.isNil JFields.nil = true then ([] : List Str)
          else "# User-Defined Variables".data ::
            EnvEncoder.encodeObject JFields.nil "USERDEFINEDVARIABLE".data ++
              [[]]) = ([] : List Str) from rfl,
        encodeObject_render test "TEST".data]
      have hall : ∀ l ∈ (["# Gatling Performance Test Configuration".data,
          "# Generated: ".data ++ t, []] ++ [] ++
          ("# Test Configuration".data :: List.map (fun pw =>
            envKeyPath "TEST".data pw.1 ++ '=' ::
              EnvEncoder.toEnvValue pw.2) (flattenEnv test))), '\n' ∉ l := by
        intro l hl
        rcases List.mem_append.mp hl with hm | hm
        · rcases List.mem_append.mp hm with hm | hm
          · rcases List.mem_cons.mp hm with hm | hm
            · rw [hm]; decide
            · rcases List.mem_cons.mp hm with hm | hm
              · rw [hm]
                intro hx
                rcases List.mem_append.mp hx with hx | hx
                · exact absurd hx (by decide)
                · exact ht hx
              · rcases List.mem_cons.mp hm with hm | hm
                · rw [hm]; simp
                · cases hm
          · cases hm
        · rcases List.mem_cons.mp hm with hm | hm
          · rw [hm]; decide
          · obtain ⟨pw, hpw, hpe⟩ := List.mem_map.mp hm
            obtain ⟨hp, hkeys, hleaf⟩ := flattenEnv_good test hT pw hpw
            rw [← hpe]
            exact render_no_nl (by decide) (by decide) hkeys hleaf
      rw [splitNl_joinNl _ (by simp), flatMap_splitNl_self hall]
      rw [show (["# Gatling Performance Test Configuration".data,
          "# Generated: ".data ++ t, []] ++ [] ++
          ("# Test Configuration".data :: List.map (fun pw =>
            envKeyPath "TEST".data pw.1 ++ '=' ::
              EnvEncoder.toEnvValue pw.2) (flattenEnv test))) =
        "# Gatling Performance Test Configuration".data ::
          ("# Generated: ".data ++ t) :: ([] : Str) ::
          "# Test Configuration".data :: List.map (fun pw =>
            envKeyPath "TEST".data pw.1 ++ '=' ::
              EnvEncoder.toEnvValue pw.2) (flattenEnv test) from by simp]
      rw [List.foldl_cons, List.foldl_cons, List.foldl_cons, List.foldl_cons]
      rw [decodeLine_skip "# Gatling Performance Test Configuration".data
          (Or.inr (by decide)),
        decodeLine_skip ("# Generated: ".data ++ t) (Or.inr (by
          rw [show "# Generated: ".data ++ t =
            '#' :: (" Generated: ".data ++ t) from rfl]
          exact trim_head _ (by decide))),
        decodeLine_skip [] (Or.inl rfl),
        decodeLine_skip "# Test Configuration".data (Or.inr (by decide)),
        foldl_decode_test (flattenEnv test) _ (flattenEnv_good test hT)]
      rfl
  | cons k0 v0 rest0 =>
      rw [show ({ udv := JFields.cons k0 v0 rest0, test := test } :
          Canon).udv = JFields.cons k0 v0 rest0 from rfl,
        show ({ udv := JFields.cons k0 v0 rest0, test := test } :
          Canon).test = test from rfl,
        if_neg (fun h => absurd h (by
          rw [show JFields.isNil (JFields.cons k0 v0 rest0) = false from rfl]
          exact Bool.false_ne_true))]
      rw [encodeObject_render (JFields.cons k0 v0 rest0)
          "USERDEFINEDVARIABLE".data,
        encodeObject_render test "TEST".data]
      have hUgood := flattenEnv_good (JFields.cons k0 v0 rest0) hu
      have hTgood := flattenEnv_good test hT
      generalize hRU : flattenEnv (JFields.cons k0 v0 rest0) = FU at hUgood ⊢
      generalize hRT : flattenEnv test = FT at hTgood ⊢
      have hall : ∀ l ∈ (["# Gatling Performance Test Configuration".data,
          "# Generated: ".data ++ t, []] ++
          ("# User-Defined Variables".data :: List.map (fun pw =>
            envKeyPath "USERDEFINEDVARIABLE".data pw.1 ++ '=' ::
              EnvEncoder.toEnvValue pw.2) FU ++ [[]]) ++
          ("# Test Configuration".data :: List.map (fun pw =>
            envKeyPath "TEST".data pw.1 ++ '=' ::
              EnvEncoder.toEnvValue pw.2) FT)), '\n' ∉ l := by
        intro l hl
        rcases List.mem_append.mp hl with hm | hm
        · rcases List.mem_append.mp hm with hm | hm
          · rcases List.mem_cons.mp hm with hm | hm
            · rw [hm]; decide
            · rcases List.mem_cons.mp hm with hm | hm
              · rw [hm]
                intro hx
                rcases List.mem_append.mp hx with hx | hx
                · exact absurd hx (by decide)
                · exact ht hx
              · rcases List.mem_cons.mp hm with hm | hm
                · rw [hm]; simp
                · cases hm
          · rcases List.mem_cons.mp hm with hm | hm
            · rw [hm]; decide
            · rcases List.mem_append.mp hm with hm | hm
              · obtain ⟨pw, hpw, hpe⟩ := List.mem_map.mp hm
                obtain ⟨hp, hkeys, hleaf⟩ := hUgood pw hpw
                rw [← hpe]
                exact render_no_nl (by decide) (by decide) hkeys hleaf
              · rcases List.mem_cons.mp hm with hm | hm
                · rw [hm]; simp
                · cases hm
        · rcases List.mem_cons.mp hm with hm | hm
          · rw [hm]; decide
          · obtain ⟨pw, hpw, hpe⟩ := List.mem_map.mp hm
            obtain ⟨hp, hkeys, hleaf⟩ := hTgood pw hpw
            rw [← hpe]
            exact render_no_nl (by decide) (by decide) hkeys hleaf
      rw [splitNl_joinNl _ (by simp), flatMap_splitNl_self hall]
      rw [show (["# Gatling Performance Test Configuration".data,
          "# Generated: ".data ++ t, []] ++
          ("# User-Defined Variables".data :: List.map (fun pw =>
            envKeyPath "USERDEFINEDVARIABLE".data pw.1 ++ '=' ::
              EnvEncoder.toEnvValue pw.2) FU ++ [[]]) ++
          ("# Test Configuration".data :: List.map (fun pw =>
            envKeyPath "TEST".data pw.1 ++ '=' ::
              EnvEncoder.toEnvValue pw.2) FT)) =
        "# Gatling Performance Test Configuration".data ::
          ("# Generated: ".data ++ t) :: ([] : Str) ::
          "# User-Defined Variables".data ::
          (List.map (fun pw =>
            envKeyPath "USERDEFINEDVARIABLE".data pw.1 ++ '=' ::
              EnvEncoder.toEnvValue pw.2) FU ++
            ([] : Str) :: "# Test Configuration".data :: List.map (fun pw =>
              envKeyPath "TEST".data pw.1 ++ '=' ::
                EnvEncoder.toEnvValue pw.2) FT) from by simp]
      rw [List.foldl_cons, List.foldl_cons, List.foldl_cons, List.foldl_cons]
      rw [decodeLine_skip "# Gatling Performance Test Configuration".data
          (Or.inr (by decide)),
        decodeLine_skip ("# Generated: ".data ++ t) (Or.inr (by
          rw [show "# Generated: ".data ++ t =
            '#' :: (" Generated: ".data ++ t) from rfl]
          exact trim_head _ (by decide))),
        decodeLine_skip [] (Or.inl rfl),
        decodeLine_skip "# User-Defined Variables".data (Or.inr (by decide))]
      rw [List.foldl_append]
      rw [foldl_decode_udv FU _ hUgood]
      rw [List.foldl_cons, List.foldl_cons]
      rw [decodeLine_skip "# Test Configuration".data (Or.inr (by decide))]
      rw [foldl_decode_test FT _ hTgood]
      rfl

/-! ## Claim C2 — ENV encode/decode round trip -/

/-- Claim C2 as stated is false: the leaf `flag: "true"` is a scalar string
under a single-word camelCase key, yet decoding its encoding re-types it as
the boolean `true`, changing the runtime type. -/
theorem claim_C2_counterexample :
    JFields.getPath (JFields.cons "flag".data (.vStr "true".data) .nil)
      ["flag".data] = some (.vStr "true".data) ∧
    (EnvEncoder.decode (EnvEncoder.encode "ts".data
      ⟨.nil, .cons "flag".data (.vStr "true".data) .nil⟩)).test.getPath
        ["flag".data] = some (.vBool true) ∧
    JVal.vBool true ≠ JVal.vStr "true".data :=
  ⟨by decide, by decide, by decide⟩

/-- Claim C2 (corrected): the ENV round trip reproduces every leaf — same
value and same constructor, hence the same runtime type — provided the
leaves are round-trippable (`goodLeaf`: booleans; non-negative integers;
newline-free strings that are either quoted by the encoder or are
bare-safe, i.e. not re-typed as booleans, integers or floats), in
addition to the claim's own conditions that keys are single-word
camelCase segments.  The original claim fails because a bare string such
as `"true"` or `"42"` is re-typed by `parseEnvValue` on the way back; the
newline-free restriction is equally necessary, because the encoder quotes
a string containing a raw newline without escaping the newline itself, so
`decode`'s line split cuts the leaf's `KEY=value` line in two and only
the first fragment is parsed. -/
theorem claim_C2 (t : Str) (c : Canon) (ht : '\n' ∉ t)
    (hu : goodDoc c.udv = true) (hT : goodDoc c.test = true) :
    ∀ p w, ((p, w) ∈ flattenEnv c.test →
        (EnvEncoder.decode (EnvEncoder.encode t c)).test.getPath p =
          some w) ∧
      ((p, w) ∈ flattenEnv c.udv →
        (EnvEncoder.decode (EnvEncoder.encode t c)).udv.getPath p =
          some w) := by
  intro p w
  rw [decode_encode t c ht hu hT]
  constructor
  · intro hm
    exact foldl_flatten_getPath c.test .nil hT (fun k2 _ => rfl) (p, w) hm
  · intro hm
    exact foldl_flatten_getPath c.udv .nil hu (fun k2 _ => rfl) (p, w) hm

/-- Witness for claim C2 at the nested leaf `test.load.users = 10`. -/
theorem claim_C2_witness :
    (EnvEncoder.decode (EnvEncoder.encode "ts".data
      ⟨JFields.nil, .cons "load".data
        (.vObj (.cons "users".data (.vNum 10) .nil)) .nil⟩)).test.getPath
      ["load".data, "users".data] = some (.vNum 10) :=
  ((claim_C2 "ts".data ⟨JFields.nil, .cons "load".data
      (.vObj (.cons "users".data (.vNum 10) .nil)) .nil⟩
    (by decide) (by decide) (by decide))
    ["load".data, "users".data] (.vNum 10)).1 (by decide)
